import Mathlib

/-!
Verification of the Gc (Graph Cut) library's MATLAB example drivers and
support algorithms against their natural-language specification.

Each section embeds one piece of the C++/MATLAB source as Lean definitions
(shallow embedding: arrays become functions or lists, machine floats become
exact rationals or reals, MATLAB's non-finite doubles become an explicit
value type) and proves or refutes the corresponding specification claims.
-/

/- ========================================================================
   Shared list helpers (MATLAB min / max / mean over the image intensities).
   `min(img(:))`, `max(img(:))` and `mean(img(:))` in the .m sources.
   The empty list gets a junk value (MATLAB would yield [] / NaN); all
   theorems using these either assume nonemptiness or are unaffected.
   ======================================================================== -/

def listMin : List ℚ → ℚ
  | [] => 0
  | x :: xs => xs.foldl min x

def listMax : List ℚ → ℚ
  | [] => 0
  | x :: xs => xs.foldl max x

def listMean (l : List ℚ) : ℚ := l.sum / (l.length : ℚ)

/- ========================================================================
   C3: neighbourhood symbol handling.

   `CreateNeighbourhood` (src/unnamed/part_000, the GcMatlabTools.h header,
   lines 188-217) validates the symbol string and errors with
   "Unsupported neighbourhood type for given image dimensionality.".
   The GcChanVeseLab / GcRoussonDeriche / GcMumfordShah drivers instead
   build the neighbourhood directly from `atoi(str_nb + 1)` with no
   validation of the symbol (GcChanVeseLab.cpp:62, GcRoussonDeriche.cpp:38,
   GcMumfordShah part_000:40).
   ======================================================================== -/

/-- Result of building a neighbourhood: `Common(k, false)` or
`Box(Vector(2), true, false)` as called by the sources. -/
inductive NbChoice where
  | common (size : ℕ)
  | box (radius : ℕ)
deriving DecidableEq

/-- C `atoi` on the digit-prefix of a character list (the driver strings are
plain digit tails, so the sign/whitespace handling of `atoi` is irrelevant). -/
def atoiChars : List Char → ℕ → ℕ
  | [], acc => acc
  | c :: cs, acc =>
    if c.isDigit then atoiChars cs (acc * 10 + (c.toNat - '0'.toNat)) else acc

/-- `atoi(str + 1)`: C pointer arithmetic skips the first character, then
`atoi` parses the digit-prefix of the rest. -/
def atoiTail (s : String) : ℕ := atoiChars (s.data.drop 1) 0

/-- Embedding of `CreateNeighbourhood<N>` from GcMatlabTools.h
(src/unnamed/part_000 lines 188-217): exact string comparisons, then
`Common(atoi(str_nb+1), false)` or `Box(Vector(2), true, false)`,
otherwise `mexErrMsgTxt`. -/
def createNeighbourhood (N : ℕ) (s : String) : Except String NbChoice :=
  if N = 2 ∧ (s = "N4" ∨ s = "N8" ∨ s = "N16" ∨ s = "N32") then
    Except.ok (NbChoice.common (atoiTail s))
  else if N = 3 ∧ (s = "N6" ∨ s = "N18" ∨ s = "N26") then
    Except.ok (NbChoice.common (atoiTail s))
  else if N = 3 ∧ s = "N98" then
    Except.ok (NbChoice.box 2)
  else
    Except.error "Unsupported neighbourhood type for given image dimensionality."

/-- Modelled from the spec: `Gc::Energy::Neighbourhood::Common` is not under
src/; per the spec the library enumerates the 2D systems of 4, 8, 16, 32 and
the 3D systems of 6, 18, 26 offsets (the 98-neighbourhood is built via `Box`),
and an unsupported size raises a library exception, which the mex drivers
catch and report (with the library's message, not the
"Unsupported neighbourhood" one). -/
def nbCommon (N k : ℕ) : Except String NbChoice :=
  if (N = 2 ∧ (k = 4 ∨ k = 8 ∨ k = 16 ∨ k = 32)) ∨
     (N = 3 ∧ (k = 6 ∨ k = 18 ∨ k = 26)) then
    Except.ok (NbChoice.common k)
  else
    Except.error "library exception: unknown common neighbourhood size"

/-- Neighbourhood handling of the GcChanVeseLab, GcRoussonDeriche and
GcMumfordShah drivers: `Neighbourhood<N,Int32> nb((Size)atoi(str_nb + 1), false)`
(GcChanVeseLab.cpp:62, GcRoussonDeriche.cpp:38, part_000:40) — the symbol
string is never compared against the supported names. -/
def driverDirectNb (N : ℕ) (s : String) : Except String NbChoice :=
  nbCommon N (atoiTail s)

/- ========================================================================
   C4: parameter validation of the mex entry points.

   The validation sequences of GcMumfordShah (part_000:100-155),
   GcChanVeseLab (GcChanVeseLab.cpp:158-233 and Segment lines 44-59) and
   GcRoussonDeriche (GcRoussonDeriche.cpp:97-148), with the numeric
   parameters already converted as in the sources (double → Gc::Size for
   k and max_iter).  Image classes (single/double) are orthogonal to the
   claim and omitted; dimension counts and dimension vectors are passed in.
   ======================================================================== -/

/-- GcMumfordShah mexFunction checks, in source order. -/
def gcMumfordShahChecks (k maxIter : ℕ) (lambda conv : ℚ) (dimNum : ℕ) :
    Except String Unit :=
  if k < 2 ∨ 254 < k then
    Except.error "Condition 1 < k < 255 not satisfied."
  else if ¬(0 < lambda ∧ 0 < maxIter) then
    Except.error "Parameters lambda and max_iter must be greater than zero."
  else if conv < 0 then
    Except.error "Convergence criterion must be greater or equal to zero."
  else if dimNum = 2 then Except.ok ()
  else if dimNum = 3 then Except.ok ()
  else Except.error "Only 2D and 3D images are supported."

/-- GcChanVeseLab validation: mexFunction checks (lambda/conv/c1-c2 and the
dimension-count checks on the interface and mask), then the exact dimension
comparisons done inside `Segment` before any graph is built
(GcChanVeseLab.cpp lines 44-59).  Dimension vectors are the mx dimensions. -/
def gcChanVeseLabChecks (l1 l2 c1 c2 conv : ℚ) (maxIter : ℕ)
    (imgDims ifaceDims : List ℕ) (maskDims : Option (List ℕ)) :
    Except String Unit :=
  if ¬(0 < l1 ∧ 0 < l2 ∧ 0 < maxIter) then
    Except.error "Parameters lambda1, lambda2 and max_iter must be greater than zero."
  else if conv < 0 then
    Except.error "Convergence criterion must be greater or equal to zero."
  else if c2 ≤ c1 then
    Except.error "Condition c1 < c2 is not satisfied."
  else if imgDims.length ≠ ifaceDims.length then
    Except.error "Initial interface and image must have the same dimensions. Interface must be of uint8 type."
  else if (match maskDims with
           | some md => decide (imgDims.length ≠ md.length)
           | none => false) = true then
    Except.error "Mask and image must have the same dimensions. Mask data type must be uint8."
  else if imgDims.length = 2 ∨ imgDims.length = 3 then
    -- checks inside Segment, still before any segmentation work
    if ifaceDims ≠ imgDims then
      Except.error "Initial interface and image must have the same dimensions."
    else match maskDims with
      | some md =>
        if md ≠ imgDims then
          Except.error "Mask and image must have the same dimensions."
        else Except.ok ()
      | none => Except.ok ()
  else Except.error "Only 2D and 3D images are supported."

/-- GcRoussonDeriche mexFunction checks, in source order. -/
def gcRoussonDericheChecks (lambda conv : ℚ) (maxIter : ℕ) (dimNum : ℕ) :
    Except String Unit :=
  if ¬(0 < lambda ∧ 0 < maxIter) then
    Except.error "Parameters lambda and max_iter must be greater than zero."
  else if conv < 0 then
    Except.error "Convergence criterion must be greater or equal to zero."
  else if dimNum = 2 then Except.ok ()
  else if dimNum = 3 then Except.ok ()
  else Except.error "Only 2D and 3D images are supported."

/- ========================================================================
   C5: gc_weighted_kmeans.m (Gibou-Fedkiw weighted two-mean), lines 76-93.
   Intensities are exact rationals.  `mean` of an empty selection is the
   junk value 0 rather than MATLAB's NaN; this corner is hit by neither the
   counterexample nor the refinement (both sides of the refinement use the
   same mean).
   ======================================================================== -/

/-- The residual indicator `R = -lambda1*(img-c1).^2 + lambda2*(img-c2).^2`. -/
def kmR (l1 l2 : ℚ) (c : ℚ × ℚ) (x : ℚ) : ℚ :=
  -l1 * (x - c.1) ^ 2 + l2 * (x - c.2) ^ 2

/-- One loop body: `c1 = mean(img(R >= 0)); c2 = mean(img(R < 0))`. -/
def kmStep (img : List ℚ) (l1 l2 : ℚ) (c : ℚ × ℚ) : ℚ × ℚ :=
  (listMean (img.filter (fun x => decide (0 ≤ kmR l1 l2 c x))),
   listMean (img.filter (fun x => decide (kmR l1 l2 c x < 0))))

/-- The `while (abs(c1-old_c1) + abs(c2-old_c2) > conv) && (iter < maxiter)`
loop; `rem` is the number of iterations still allowed (maxiter - iter). -/
def kmLoop (img : List ℚ) (l1 l2 conv : ℚ) :
    ℕ → ℚ × ℚ → ℚ × ℚ → ℕ → (ℚ × ℚ) × ℕ
  | 0, c, _, iter => (c, iter)
  | rem + 1, c, old, iter =>
    if conv < |c.1 - old.1| + |c.2 - old.2| then
      kmLoop img l1 l2 conv rem (kmStep img l1 l2 c) c (iter + 1)
    else (c, iter)

/-- Embedding of gc_weighted_kmeans.m lines 76-93: the init
`c1 = avg - (avg - min(img(:)))/2; c2 = avg + (max(img(:)) - avg)/2`,
the sentinel previous values (-1,-1), and the iteration; returns the final
means and the iteration count. -/
def gcWeightedKmeans (img : List ℚ) (l1 l2 conv : ℚ) (maxiter : ℕ) :
    (ℚ × ℚ) × ℕ :=
  let avg := listMean img
  let c1 := avg - (avg - listMin img) / 2
  let c2 := avg + (listMax img - avg) / 2
  kmLoop img l1 l2 conv maxiter (c1, c2) (-1, -1) 0

/-- The claim's loop, verbatim: it stops exactly when
`|Δc1| + |Δc2| < conv` (strict) or maxiter iterations have been performed. -/
def kmLoopClaim (img : List ℚ) (l1 l2 conv : ℚ) :
    ℕ → ℚ × ℚ → ℚ × ℚ → ℕ → (ℚ × ℚ) × ℕ
  | 0, c, _, iter => (c, iter)
  | rem + 1, c, old, iter =>
    if |c.1 - old.1| + |c.2 - old.2| < conv then (c, iter)
    else kmLoopClaim img l1 l2 conv rem (kmStep img l1 l2 c) c (iter + 1)

/-- gc_weighted_kmeans as the claim describes it (init
`c1 = (min+avg)/2, c2 = (avg+max)/2`, stop on `|Δc1|+|Δc2| < conv`). -/
def gcWeightedKmeansClaim (img : List ℚ) (l1 l2 conv : ℚ) (maxiter : ℕ) :
    (ℚ × ℚ) × ℕ :=
  kmLoopClaim img l1 l2 conv maxiter
    ((listMin img + listMean img) / 2, (listMean img + listMax img) / 2)
    (-1, -1) 0

/-- The amended claim's loop: as the claim, but the stop test is
`|Δc1| + |Δc2| ≤ conv` (non-strict), matching the code's
`while ... > conv` guard. -/
def kmLoopSpec (img : List ℚ) (l1 l2 conv : ℚ) :
    ℕ → ℚ × ℚ → ℚ × ℚ → ℕ → (ℚ × ℚ) × ℕ
  | 0, c, _, iter => (c, iter)
  | rem + 1, c, old, iter =>
    if |c.1 - old.1| + |c.2 - old.2| ≤ conv then (c, iter)
    else kmLoopSpec img l1 l2 conv rem (kmStep img l1 l2 c) c (iter + 1)

/-- gc_weighted_kmeans as the amended claim describes it. -/
def gcWeightedKmeansSpec (img : List ℚ) (l1 l2 conv : ℚ) (maxiter : ℕ) :
    (ℚ × ℚ) × ℕ :=
  kmLoopSpec img l1 l2 conv maxiter
    ((listMin img + listMean img) / 2, (listMean img + listMax img) / 2)
    (-1, -1) 0

/- ========================================================================
   C7: masked label reconstruction in GcChanVeseLab::Segment
   (GcChanVeseLab.cpp lines 98-111): positions whose mask value is not
   UNKNOWN keep the initial labelling, UNKNOWN positions take consecutive
   solver labels `mf.NodeLabel(j)`.
   ======================================================================== -/

/-- Modelled from the spec: `Gc::Algo::Segmentation::MaskUnknown` is declared
in Gc/Algo/Segmentation/Mask.h, which is not under src/; the spec fixes the
mask encoding to 1 = BACKGROUND_FIXED, 2 = FOREGROUND_FIXED, 3 = UNKNOWN. -/
def maskUnknown : ℕ := 3

/-- The reconstruction loop of GcChanVeseLab.cpp lines 99-111: `j` counts the
UNKNOWN positions already passed. -/
def maskedLabelsLoop {L : Type} (nodeLabel : ℕ → L) :
    List ℕ → List L → ℕ → List L
  | [], _, _ => []
  | _ :: _, [], _ => []
  | m :: ms, f :: fs, j =>
    if m = maskUnknown then nodeLabel j :: maskedLabelsLoop nodeLabel ms fs (j + 1)
    else f :: maskedLabelsLoop nodeLabel ms fs j

/-- The final label field of the masked GcChanVeseLab variant. -/
def gcChanVeseLabMaskedLabels {L : Type} (nodeLabel : ℕ → L)
    (mask : List ℕ) (iface : List L) : List L :=
  maskedLabelsLoop nodeLabel mask iface 0

/- ========================================================================
   C10: gc_normalize_image.m lines 28-31, with MATLAB's IEEE division
   modelled exactly where it matters: an exact rational result when the
   divisor is nonzero, NaN / +-Inf when it is zero.
   ======================================================================== -/

/-- A MATLAB double that is either an exact (finite) value or one of the
non-finite values produced by dividing by zero. -/
inductive MVal where
  | fin (q : ℚ)
  | nan
  | inf
  | ninf
deriving DecidableEq

/-- MATLAB division: x/0 is NaN for x = 0, +-Inf otherwise. -/
def mdiv (x y : ℚ) : MVal :=
  if y = 0 then
    if x = 0 then MVal.nan else if 0 < x then MVal.inf else MVal.ninf
  else MVal.fin (x / y)

/-- Embedding of gc_normalize_image.m:
`a = min(img(:)); b = max(img(:)); nimg = (img - a) / (b - a);`
the division is unguarded. -/
def gcNormalizeImage (img : List ℚ) : List MVal :=
  let a := listMin img
  let b := listMax img
  img.map (fun x => mdiv (x - a) (b - a))

/- ========================================================================
   C1: RiemannianDanek::SetTransformationMatrix
   (src/Gc/Energy/Potential/Metric/RiemannianDanek.cpp lines 45-96).
   Vectors over the reals; the hyperspherical Voronoi solid-angle routine
   `Math::Geometry::HypersphereVoronoiDiagram` lives outside this file and
   is taken as an abstract function of the (normalized) direction set.
   ======================================================================== -/

/-- Euclidean length of a vector, `Vector::Length()` (the library's norm is
not under src/; this is the Euclidean norm the spec's rho denotes). -/
noncomputable def vecLen {n : ℕ} (v : Fin n → ℝ) : ℝ :=
  Real.sqrt (∑ i, v i ^ 2)

/-- `Vector::Normalized()`: the vector divided by its Euclidean length. -/
noncomputable def normalizedVec {n : ℕ} (v : Fin n → ℝ) : Fin n → ℝ :=
  fun i => v i / vecLen v

/-- `CauchyCroftonCoef<N,T>` (RiemannianDanek.cpp lines 45-65): 2 in two
dimensions, pi in three; the template has no other instantiation. -/
noncomputable def cauchyCroftonCoef : ℕ → ℝ
  | 2 => 2
  | 3 => Real.pi
  | _ => 0

/-- Embedding of `RiemannianDanek<N,T>::SetTransformationMatrix` (lines
70-96): normalize the transformed directions, get their Voronoi solid-angle
shares `dphi`, then set
`m_rw[i] = (dphi[i] * (Determinant() / |M d_i|)) / CauchyCroftonCoef`.
`nb` is the neighbourhood direction table `m_nb`, `voronoi` the abstract
`HypersphereVoronoiDiagram`. -/
noncomputable def setTransformationMatrix {n : ℕ} (nb : ℕ → Fin n → ℝ)
    (voronoi : (ℕ → Fin n → ℝ) → ℕ → ℝ)
    (mt : Matrix (Fin n) (Fin n) ℝ) : ℕ → ℝ :=
  let nv : ℕ → Fin n → ℝ := fun i => normalizedVec (mt.mulVec (nb i))
  let dphi := voronoi nv
  let coef := cauchyCroftonCoef n
  let cellArea := mt.det
  fun i => dphi i * (cellArea / vecLen (mt.mulVec (nb i))) / coef

/-- The weight the claim and the spec prescribe:
`w_i = (phi_i * (1/rho_i)) / K_N` with `d_i` replaced by `M d_i`
(Voronoi on the normalized transformed set, `rho_i = |M d_i|`)
and the whole multiplied by `det M`. -/
noncomputable def specRiemannianWeight {n : ℕ} (nb : ℕ → Fin n → ℝ)
    (voronoi : (ℕ → Fin n → ℝ) → ℕ → ℝ)
    (mt : Matrix (Fin n) (Fin n) ℝ) : ℕ → ℝ :=
  fun i =>
    let phi := voronoi (fun j => normalizedVec (mt.mulVec (nb j)))
    let rho := vecLen (mt.mulVec (nb i))
    mt.det * (phi i * (1 / rho) / cauchyCroftonCoef n)

/-- Symmetric positive definite, as the claim requires of the transform. -/
def IsSPD {n : ℕ} (mt : Matrix (Fin n) (Fin n) ℝ) : Prop :=
  mt.IsSymm ∧ ∀ v : Fin n → ℝ, v ≠ 0 → 0 < Matrix.dotProduct v (mt.mulVec v)

/- ========================================================================
   C2: the "iterations performed" output of the drivers.

   Modelled from the spec: the segmentation routines
   `ChanVese::Compute` / `MumfordShah::ComputePiecewiseConstant` /
   `RoussonDeriche::Compute` are not under src/ (only their callers are);
   per the spec each runs the outer fixed-point loop, stopping when the sum
   of mean deltas reaches the convergence threshold or max_iter is hit, and
   leaves the number of performed iterations in the caller's max_iter
   variable (passed by reference), which the drivers then emit as plhs[2]
   (GcChanVeseLab.cpp:119, GcRoussonDeriche.cpp:60, part_000:60).  The
   re-estimation of the means by one graph cut is abstracted as `upd`.
   ======================================================================== -/

/-- The outer fixed-point loop: run `upd`, count the iteration, stop when
`|Δc1| + |Δc2| ≤ conv`; `fuel` is the number of iterations still allowed. -/
def cvLoop (upd : ℚ × ℚ → ℚ × ℚ) (conv : ℚ) :
    ℕ → ℚ × ℚ → ℕ → (ℚ × ℚ) × ℕ
  | 0, c, iter => (c, iter)
  | fuel + 1, c, iter =>
    let c2 := upd c
    if |c2.1 - c.1| + |c2.2 - c.2| ≤ conv then (c2, iter + 1)
    else cvLoop upd conv fuel c2 (iter + 1)

/-- The segmentation routine's result: final means and performed iterations
(the latter is what it writes back into max_iter). -/
def chanVeseCompute (upd : ℚ × ℚ → ℚ × ℚ) (conv : ℚ) (maxIter : ℕ)
    (c0 : ℚ × ℚ) : (ℚ × ℚ) × ℕ :=
  cvLoop upd conv maxIter c0 0

/-- GcChanVeseLab's plhs[2]: the max_iter variable after Compute returned. -/
def gcChanVeseLabIterOut (upd : ℚ × ℚ → ℚ × ℚ) (conv : ℚ) (maxIter : ℕ)
    (c0 : ℚ × ℚ) : ℕ :=
  (chanVeseCompute upd conv maxIter c0).2

/-- GcRoussonDeriche's plhs[2], same plumbing. -/
def gcRoussonDericheIterOut (upd : ℚ × ℚ → ℚ × ℚ) (conv : ℚ) (maxIter : ℕ)
    (c0 : ℚ × ℚ) : ℕ :=
  (chanVeseCompute upd conv maxIter c0).2

/-- GcMumfordShah's plhs[2], same plumbing. -/
def gcMumfordShahIterOut (upd : ℚ × ℚ → ℚ × ℚ) (conv : ℚ) (maxIter : ℕ)
    (c0 : ℚ × ℚ) : ℕ :=
  (chanVeseCompute upd conv maxIter c0).2

/-- The convergence threshold is met at (1-based) iteration k: the k-th
re-estimation moves the means by at most conv. -/
def cvMet (upd : ℚ × ℚ → ℚ × ℚ) (c0 : ℚ × ℚ) (conv : ℚ) (k : ℕ) : Prop :=
  |(upd^[k] c0).1 - (upd^[k - 1] c0).1| + |(upd^[k] c0).2 - (upd^[k - 1] c0).2| ≤ conv

/- ========================================================================
   C6: the band mask of gc_chan_vese_two_stage.m (src/unnamed/part_001,
   lines 178-193).  Positions form an N-D grid (height x width x depth;
   depth 1 covers the 2-D case); the cityblock distance transform
   `GcDistTransform(seg, zero_val, 'cityblock')` is modelled from the spec
   (its implementation, Gc/Algo/Geometry/DistanceTransform.h, is not under
   src/): the distance of p to the nearest position with value zero_val,
   infinite (top) when no such position exists.
   ======================================================================== -/

/-- Grid position type. -/
def GridPos (h w d : ℕ) : Type := Fin h × Fin w × Fin d

instance (h w d : ℕ) : Fintype (GridPos h w d) :=
  instFintypeProd _ _

instance (h w d : ℕ) : DecidableEq (GridPos h w d) :=
  instDecidableEqProd

/-- Cityblock (L1) distance between two grid positions. -/
def cityDist {h w d : ℕ} (p q : GridPos h w d) : ℕ :=
  Nat.dist p.1.val q.1.val + Nat.dist p.2.1.val q.2.1.val +
    Nat.dist p.2.2.val q.2.2.val

/-- Modelled from the spec: the cityblock distance transform of
GcDistTransform — distance to the nearest position whose value is
`zeroVal`. -/
def distTransform {h w d : ℕ} (seg : GridPos h w d → Bool) (zeroVal : Bool)
    (p : GridPos h w d) : WithTop ℕ :=
  (Finset.univ.filter (fun q => seg q = zeroVal)).inf
    (fun q => (cityDist p q : WithTop ℕ))

/-- The band mask of gc_chan_vese_two_stage.m lines 182-188:
`mask = uint8(3) * ones(...)`, then positions with
`GcDistTransform(seg, false) > bandradius` are set to 2 (FOREGROUND_FIXED),
then positions with `GcDistTransform(seg, true) > bandradius` are set
to 1 (BACKGROUND_FIXED). -/
def bandMask {h w d : ℕ} (seg : GridPos h w d → Bool) (bandradius : ℕ) :
    GridPos h w d → ℕ :=
  let m0 : GridPos h w d → ℕ := fun _ => 3
  let m1 : GridPos h w d → ℕ := fun p =>
    if (bandradius : WithTop ℕ) < distTransform seg false p then 2 else m0 p
  fun p =>
    if (bandradius : WithTop ℕ) < distTransform seg true p then 1 else m1 p

/-- The outputs of one GcChanVese mex call (seg, energy, iter, c1, c2). -/
structure CVResult (h w d : ℕ) where
  seg : GridPos h w d → Bool
  energy : ℚ
  iter : ℕ
  cOne : ℚ
  cTwo : ℚ

/-- Embedding of the tail of gc_chan_vese_two_stage.m (lines 178-193),
parameterized by the GcChanVese mex routine (closed over the image): the
coarse first stage without mask, the band mask around its segmentation, and
the refinement stage on that mask with neighbourhood nb2 and flow2. -/
def gcChanVeseTwoStage {h w d : ℕ}
    (gcChanVese : ℚ → ℚ → ℚ → ℚ → ℚ → ℕ → String → String →
      Option (GridPos h w d → ℕ) → CVResult h w d)
    (mu l1 l2 : ℚ) (bandradius : ℕ) (nb1 nb2 flow1 flow2 : String)
    (conv1 conv2 : ℚ) (maxiter1 maxiter2 : ℕ) (c1 c2 : ℚ) :
    CVResult h w d × ℕ :=
  let r1 := gcChanVese (l1 / mu) (l2 / mu) c1 c2 conv1 maxiter1 nb1 flow1 none
  let mask := bandMask r1.seg bandradius
  let r2 := gcChanVese (l1 / mu) (l2 / mu) r1.cOne r1.cTwo conv2 maxiter2
    nb2 flow2 (some mask)
  (r2, r1.iter)

/- ========================================================================
   C8: GetImage / SetImage (src/Examples/Matlab/GcMatlab.h lines 49-119).
   Memory is a function from linear offsets to values; each pointer loop of
   the source becomes one recursion, carrying the read position `dipos`,
   the write position `dpos` and the output built so far.  `mx` and `my`
   are the Gc image's dimensions 0 and 1 (mx_dim[1] and mx_dim[0] of the
   MATLAB array), `ns` the number of XY slices (`dim_wo_xy`).
   ======================================================================== -/

/-- GetImage inner loop over y (GcMatlab.h lines 77-82): copy one input
element, advance the write pointer by `mx` and the read pointer by 1. -/
def giY {α : Type} (mx : ℕ) (m : ℕ → α) :
    ℕ → (ℕ → α) → ℕ → ℕ → ((ℕ → α) × ℕ × ℕ)
  | 0, out, dipos, dpos => (out, dipos, dpos)
  | k + 1, out, dipos, dpos =>
    giY mx m k (Function.update out dpos (m dipos)) (dipos + 1) (dpos + mx)

/-- GetImage middle loop over x (lines 75-84): run the y loop, then
`dout -= slice_sz - 1`. -/
def giX {α : Type} (mx my : ℕ) (m : ℕ → α) :
    ℕ → (ℕ → α) → ℕ → ℕ → ((ℕ → α) × ℕ × ℕ)
  | 0, out, dipos, dpos => (out, dipos, dpos)
  | k + 1, out, dipos, dpos =>
    let r := giY mx m my out dipos dpos
    giX mx my m k r.1 r.2.1 (r.2.2 - (mx * my - 1))

/-- GetImage outer loop over the slices (lines 73-88): run the x loop, then
`dout += slice_sz - img_dim[0]`. -/
def giI {α : Type} (mx my : ℕ) (m : ℕ → α) :
    ℕ → (ℕ → α) → ℕ → ℕ → ((ℕ → α) × ℕ × ℕ)
  | 0, out, dipos, dpos => (out, dipos, dpos)
  | k + 1, out, dipos, dpos =>
    let r := giX mx my m mx out dipos dpos
    giI mx my m k r.1 r.2.1 (r.2.2 + (mx * my - mx))

/-- `GetImage`: the Gc image array (positions `x + mx*y + mx*my*i`) filled
from the MATLAB array `m` (positions `y + my*x + mx*my*i`); the fresh array
content before the copy is `dflt` (Resize leaves it uninitialized). -/
def getImage {α : Type} (mx my ns : ℕ) (dflt : α) (m : ℕ → α) : ℕ → α :=
  (giI mx my m ns (fun _ => dflt) 0 0).1

/-- SetImage inner loop over x (GcMatlab.h lines 107-112): copy one Gc
element, advance the write pointer by `my` and the read pointer by 1. -/
def siX {α : Type} (my : ℕ) (g : ℕ → α) :
    ℕ → (ℕ → α) → ℕ → ℕ → ((ℕ → α) × ℕ × ℕ)
  | 0, out, dipos, dpos => (out, dipos, dpos)
  | k + 1, out, dipos, dpos =>
    siX my g k (Function.update out dpos (g dipos)) (dipos + 1) (dpos + my)

/-- SetImage middle loop over y (lines 105-115): run the x loop, then
`dout -= slice_sz - 1`. -/
def siY {α : Type} (mx my : ℕ) (g : ℕ → α) :
    ℕ → (ℕ → α) → ℕ → ℕ → ((ℕ → α) × ℕ × ℕ)
  | 0, out, dipos, dpos => (out, dipos, dpos)
  | k + 1, out, dipos, dpos =>
    let r := siX my g mx out dipos dpos
    siY mx my g k r.1 r.2.1 (r.2.2 - (mx * my - 1))

/-- SetImage outer loop over the slices (lines 103-118): run the y loop,
then `dout += slice_sz - img.Dimensions()[1]`. -/
def siI {α : Type} (mx my : ℕ) (g : ℕ → α) :
    ℕ → (ℕ → α) → ℕ → ℕ → ((ℕ → α) × ℕ × ℕ)
  | 0, out, dipos, dpos => (out, dipos, dpos)
  | k + 1, out, dipos, dpos =>
    let r := siY mx my g my out dipos dpos
    siI mx my g k r.1 r.2.1 (r.2.2 + (mx * my - my))

/-- `SetImage`: the MATLAB output array filled from the Gc array `g`; the
mxCreate'd output content before the copy is `dflt`. -/
def setImage {α : Type} (mx my ns : ℕ) (dflt : α) (g : ℕ → α) : ℕ → α :=
  (siI mx my g ns (fun _ => dflt) 0 0).1

/- ========================================================================
   C9: Sort::Heap and Sort::HeapSimultaneous
   (src/Gc/System/Algo/Sort/Heap.h lines 51-93 and 107-157).
   The ranges are functions from positions; `n` is the length.  The child
   selection of the inner while loop is inlined into the branch structure
   (child = 2*index+1, bumped to child+1 when that is in range and larger).
   The simultaneous variant carries the second range through the identical
   moves; `Heap` itself is the first projection of those moves.
   ======================================================================== -/

/-- The inner sift of `HeapSimultaneous` (Heap.h lines 132-155): walk the
larger-child chain while it exceeds `temp1`, moving elements of both ranges
up, and finally store the temporaries at the stopping index. -/
def simSift {α γ : Type} [LinearOrder α] (a : ℕ → α) (b : ℕ → γ)
    (t1 : α) (t2 : γ) (n index : ℕ) : (ℕ → α) × (ℕ → γ) :=
  if h1 : 2 * index + 1 < n then
    if h2 : 2 * index + 2 < n ∧ a (2 * index + 1) < a (2 * index + 2) then
      if t1 < a (2 * index + 2) then
        simSift (Function.update a index (a (2 * index + 2)))
          (Function.update b index (b (2 * index + 2))) t1 t2 n (2 * index + 2)
      else (Function.update a index t1, Function.update b index t2)
    else
      if t1 < a (2 * index + 1) then
        simSift (Function.update a index (a (2 * index + 1)))
          (Function.update b index (b (2 * index + 1))) t1 t2 n (2 * index + 1)
      else (Function.update a index t1, Function.update b index t2)
  else (Function.update a index t1, Function.update b index t2)
termination_by n - index
decreasing_by
  · omega
  · omega

/-- The outer while of `HeapSimultaneous` (lines 115-156): heap
construction while `parent > 0`, extraction (swap the maximum to position
`n-1`, shrink, re-sift from the root) afterwards. -/
def simLoop {α γ : Type} [LinearOrder α] (a : ℕ → α) (b : ℕ → γ)
    (n parent : ℕ) : (ℕ → α) × (ℕ → γ) :=
  if 1 < n then
    if 0 < parent then
      let r := simSift a b (a (parent - 1)) (b (parent - 1)) n (parent - 1)
      simLoop r.1 r.2 n (parent - 1)
    else
      let r := simSift (Function.update a (n - 1) (a 0))
        (Function.update b (n - 1) (b 0)) (a (n - 1)) (b (n - 1)) (n - 1) 0
      simLoop r.1 r.2 (n - 1) 0
  else (a, b)
termination_by n + parent
decreasing_by
  · omega
  · omega

/-- `Sort::HeapSimultaneous(d1Beg, d1End, d2Beg)` on ranges of length `nn`. -/
def heapSimultaneous {α γ : Type} [LinearOrder α] (a : ℕ → α) (b : ℕ → γ)
    (nn : ℕ) : (ℕ → α) × (ℕ → γ) :=
  simLoop a b nn (nn / 2)

/-- The inner sift of `Heap` (Heap.h lines 70-91), single range. -/
def heapSift {α : Type} [LinearOrder α] (a : ℕ → α) (t1 : α) (n index : ℕ) :
    ℕ → α :=
  if h1 : 2 * index + 1 < n then
    if h2 : 2 * index + 2 < n ∧ a (2 * index + 1) < a (2 * index + 2) then
      if t1 < a (2 * index + 2) then
        heapSift (Function.update a index (a (2 * index + 2))) t1 n (2 * index + 2)
      else Function.update a index t1
    else
      if t1 < a (2 * index + 1) then
        heapSift (Function.update a index (a (2 * index + 1))) t1 n (2 * index + 1)
      else Function.update a index t1
  else Function.update a index t1
termination_by n - index
decreasing_by
  · omega
  · omega

/-- The outer while of `Heap` (lines 57-92). -/
def heapLoop {α : Type} [LinearOrder α] (a : ℕ → α) (n parent : ℕ) : ℕ → α :=
  if 1 < n then
    if 0 < parent then
      heapLoop (heapSift a (a (parent - 1)) n (parent - 1)) n (parent - 1)
    else
      heapLoop (heapSift (Function.update a (n - 1) (a 0)) (a (n - 1)) (n - 1) 0)
        (n - 1) 0
  else a
termination_by n + parent
decreasing_by
  · omega
  · omega

/-- `Sort::Heap(begin, end)` on a range of length `nn`. -/
def heapSort {α : Type} [LinearOrder α] (a : ℕ → α) (nn : ℕ) : ℕ → α :=
  heapLoop a nn (nn / 2)

/-- Parent position in the implicit binary heap (children of i sit at
2i+1 and 2i+2). -/
def pIdx (c : ℕ) : ℕ := (c - 1) / 2

/-- `j` lies in the subtree rooted at `root` of the implicit binary heap:
the parent chain from `j` reaches `root`. -/
def isDesc (root j : ℕ) : Prop :=
  if _h : root < j then isDesc root (pIdx j) else j = root
termination_by j
decreasing_by
  simp only [pIdx]
  omega

/-- What one sift call guarantees: the result is the array with `t1`/`t2`
put at `index`, rearranged by a permutation that moves only positions in
the subtree of `index` below `n`; the heap property holds for all pairs
with parent at or below `index`; and the value left at `index` is bounded
by any bound on `t1` and the children of `index`. -/
def SiftSpec {α γ : Type} [LinearOrder α] (a : ℕ → α) (b : ℕ → γ)
    (t1 : α) (t2 : γ) (n index : ℕ) (r : (ℕ → α) × (ℕ → γ)) : Prop :=
  ∃ σ : Equiv.Perm ℕ,
    (∀ j, ¬ isDesc index j → σ j = j) ∧
    (∀ j, n ≤ j → σ j = j) ∧
    (∀ j, r.1 j = Function.update a index t1 (σ j)) ∧
    (∀ j, r.2 j = Function.update b index t2 (σ j)) ∧
    (∀ c, c < n → index ≤ pIdx c → r.1 c ≤ r.1 (pIdx c)) ∧
    (∀ B, t1 ≤ B → (∀ dd, dd < n → pIdx dd = index → a dd ≤ B) →
      r.1 index ≤ B)

/- ========================================================================
   Theorems.  Helper lemmas first, then for each claim its theorem (and
   witness / counterexample where needed).
   ======================================================================== -/

/- ------------------------- list min/max helpers ------------------------ -/

theorem foldl_min_le_init (xs : List ℚ) (x : ℚ) : xs.foldl min x ≤ x := by
  induction xs generalizing x with
  | nil => exact le_refl x
  | cons y ys ih => exact le_trans (ih (min x y)) (min_le_left x y)

theorem foldl_min_mem (xs : List ℚ) (x : ℚ) : xs.foldl min x ∈ x :: xs := by
  induction xs generalizing x with
  | nil => simp
  | cons y ys ih =>
    simp only [List.foldl_cons]
    have h := ih (min x y)
    rcases List.mem_cons.mp h with h | h
    · rcases min_choice x y with hc | hc
      · rw [h, hc]; exact List.mem_cons_self _ _
      · rw [h, hc]; exact List.mem_cons_of_mem _ (List.mem_cons_self _ _)
    · exact List.mem_cons_of_mem _ (List.mem_cons_of_mem _ h)

theorem foldl_min_le (xs : List ℚ) (x z : ℚ) (hz : z ∈ x :: xs) :
    xs.foldl min x ≤ z := by
  induction xs generalizing x with
  | nil =>
    rcases List.mem_cons.mp hz with h | h
    · rw [h]; simp
    · cases h
  | cons y ys ih =>
    simp only [List.foldl_cons]
    rcases List.mem_cons.mp hz with h | h
    · rw [h]
      exact le_trans (foldl_min_le_init _ _) (min_le_left x y)
    · rcases List.mem_cons.mp h with h | h
      · rw [h]
        exact le_trans (foldl_min_le_init _ _) (min_le_right x y)
      · exact ih (min x y) (List.mem_cons.mpr (Or.inr h))

theorem listMin_mem {l : List ℚ} (h : l ≠ []) : listMin l ∈ l := by
  cases l with
  | nil => exact absurd rfl h
  | cons x xs => exact foldl_min_mem xs x

theorem listMin_le {l : List ℚ} {z : ℚ} (hz : z ∈ l) : listMin l ≤ z := by
  cases l with
  | nil => cases hz
  | cons x xs => exact foldl_min_le xs x z hz

theorem init_le_foldl_max (xs : List ℚ) (x : ℚ) : x ≤ xs.foldl max x := by
  induction xs generalizing x with
  | nil => exact le_refl x
  | cons y ys ih => exact le_trans (le_max_left x y) (ih (max x y))

theorem foldl_max_mem (xs : List ℚ) (x : ℚ) : xs.foldl max x ∈ x :: xs := by
  induction xs generalizing x with
  | nil => simp
  | cons y ys ih =>
    simp only [List.foldl_cons]
    have h := ih (max x y)
    rcases List.mem_cons.mp h with h | h
    · rcases max_choice x y with hc | hc
      · rw [h, hc]; exact List.mem_cons_self _ _
      · rw [h, hc]; exact List.mem_cons_of_mem _ (List.mem_cons_self _ _)
    · exact List.mem_cons_of_mem _ (List.mem_cons_of_mem _ h)

theorem le_foldl_max (xs : List ℚ) (x z : ℚ) (hz : z ∈ x :: xs) :
    z ≤ xs.foldl max x := by
  induction xs generalizing x with
  | nil =>
    rcases List.mem_cons.mp hz with h | h
    · rw [h]; simp
    · cases h
  | cons y ys ih =>
    simp only [List.foldl_cons]
    rcases List.mem_cons.mp hz with h | h
    · rw [h]
      exact le_trans (le_max_left x y) (init_le_foldl_max _ _)
    · rcases List.mem_cons.mp h with h | h
      · rw [h]
        exact le_trans (le_max_right x y) (init_le_foldl_max _ _)
      · exact ih (max x y) (List.mem_cons.mpr (Or.inr h))

theorem listMax_mem {l : List ℚ} (h : l ≠ []) : listMax l ∈ l := by
  cases l with
  | nil => exact absurd rfl h
  | cons x xs => exact foldl_max_mem xs x

theorem le_listMax {l : List ℚ} {z : ℚ} (hz : z ∈ l) : z ≤ listMax l := by
  cases l with
  | nil => cases hz
  | cons x xs => exact le_foldl_max xs x z hz

/- ------------------------------- C3 ------------------------------------ -/

/-- C3 counterexample: the symbol "X8", which is none of the documented 2-D
symbols, is accepted by the GcChanVeseLab / GcRoussonDeriche /
GcMumfordShah neighbourhood handling without any error — it builds the same
8-neighbourhood as "N8" — while the validating helper `CreateNeighbourhood`
would have rejected it; so it is false that every other symbol causes an
'Unsupported neighbourhood' error. -/
theorem neighbourhood_claim_counterexample :
    driverDirectNb 2 "X8" = Except.ok (NbChoice.common 8) ∧
    driverDirectNb 2 "X8" = driverDirectNb 2 "N8" ∧
    ("X8" ≠ "N4" ∧ "X8" ≠ "N8" ∧ "X8" ≠ "N16" ∧ "X8" ≠ "N32") ∧
    createNeighbourhood 2 "X8" =
      Except.error "Unsupported neighbourhood type for given image dimensionality." := by
  refine ⟨rfl, rfl, ⟨by decide, by decide, by decide, by decide⟩, rfl⟩

/-- C3 (amended): the bit-exact symbol validation lives in
`CreateNeighbourhood` (used by the GcChanVeseTp driver): in 2D exactly
"N4","N8","N16","N32" and in 3D exactly "N6","N18","N26","N98" are accepted
(N98 as the 5x5x5 box, radius-2 `Box`), and any other symbol yields the
'Unsupported neighbourhood' error.  The GcChanVeseLab, GcRoussonDeriche and
GcMumfordShah drivers do not validate the symbol: they build the
neighbourhood from `atoi(str_nb + 1)`, so their outcome depends only on the
numeric tail of the string. -/
theorem neighbourhood_symbol_validation (N : ℕ) (s t : String)
    (h : atoiTail s = atoiTail t) :
    ((createNeighbourhood 2 s).isOk = true ↔
      (s = "N4" ∨ s = "N8" ∨ s = "N16" ∨ s = "N32")) ∧
    ((createNeighbourhood 3 s).isOk = true ↔
      (s = "N6" ∨ s = "N18" ∨ s = "N26" ∨ s = "N98")) ∧
    (createNeighbourhood 3 "N98" = Except.ok (NbChoice.box 2)) ∧
    ((createNeighbourhood N s).isOk = false →
      createNeighbourhood N s =
        Except.error "Unsupported neighbourhood type for given image dimensionality.") ∧
    driverDirectNb N s = driverDirectNb N t := by
  refine ⟨?_, ?_, rfl, ?_, ?_⟩
  · unfold createNeighbourhood
    split_ifs with h1 h2 h3 <;> simp_all [Except.isOk, Except.toBool]
  · unfold createNeighbourhood
    split_ifs with h1 h2 h3 <;> simp_all [Except.isOk, Except.toBool] <;> tauto
  · unfold createNeighbourhood
    split_ifs <;> simp [Except.isOk, Except.toBool]
  · unfold driverDirectNb
    rw [h]

/-- C3 witness: the theorem applied to the 2-D symbols "X8" and "N8"
(equal numeric tails), giving concretely that "N16" is accepted and that
the non-validating drivers treat "X8" as "N8". -/
theorem neighbourhood_symbol_validation_witness :
    atoiTail "X8" = atoiTail "N8" ∧
    (((createNeighbourhood 2 "N16").isOk = true ↔
      ("N16" = "N4" ∨ "N16" = "N8" ∨ "N16" = "N16" ∨ "N16" = "N32")) ∧
    ((createNeighbourhood 3 "N16").isOk = true ↔
      ("N16" = "N6" ∨ "N16" = "N18" ∨ "N16" = "N26" ∨ "N16" = "N98")) ∧
    (createNeighbourhood 3 "N98" = Except.ok (NbChoice.box 2)) ∧
    ((createNeighbourhood 2 "N16").isOk = false →
      createNeighbourhood 2 "N16" =
        Except.error "Unsupported neighbourhood type for given image dimensionality.") ∧
    driverDirectNb 2 "N16" = driverDirectNb 2 "N16") ∧
    driverDirectNb 2 "X8" = driverDirectNb 2 "N8" := by
  refine ⟨by decide, neighbourhood_symbol_validation 2 "N16" "N16" (by decide),
    (neighbourhood_symbol_validation 2 "X8" "N8" (by decide)).2.2.2.2⟩

/- ------------------------------- C4 ------------------------------------ -/

/-- C4: each driver entry point accepts its parameters exactly when every
validated condition holds — k strictly between 1 and 255 (Mumford-Shah),
positive lambdas, positive max_iter, nonnegative convergence, c1 < c2,
interface and mask dimensions equal to the image's, and a 2-D or 3-D
image — and otherwise stops with one of the descriptive errors, all before
any segmentation work. -/
theorem driver_parameter_validation (k maxIter : ℕ) (lambda conv : ℚ)
    (dimNum : ℕ) (l1 l2 c1 c2 : ℚ) (imgDims ifaceDims : List ℕ)
    (maskDims : Option (List ℕ)) :
    (gcMumfordShahChecks k maxIter lambda conv dimNum = Except.ok () ↔
      (1 < k ∧ k < 255 ∧ 0 < lambda ∧ 0 < maxIter ∧ 0 ≤ conv ∧
        (dimNum = 2 ∨ dimNum = 3))) ∧
    (gcChanVeseLabChecks l1 l2 c1 c2 conv maxIter imgDims ifaceDims maskDims =
        Except.ok () ↔
      (0 < l1 ∧ 0 < l2 ∧ 0 < maxIter ∧ 0 ≤ conv ∧ c1 < c2 ∧
        ifaceDims = imgDims ∧ (∀ md ∈ maskDims, md = imgDims) ∧
        (imgDims.length = 2 ∨ imgDims.length = 3))) ∧
    (gcRoussonDericheChecks lambda conv maxIter dimNum = Except.ok () ↔
      (0 < lambda ∧ 0 < maxIter ∧ 0 ≤ conv ∧ (dimNum = 2 ∨ dimNum = 3))) := by
  refine ⟨?_, ?_, ?_⟩
  · constructor
    · intro h
      unfold gcMumfordShahChecks at h
      split_ifs at h with h1 h2 h3 h4 h5
      · exact ⟨by omega, by omega, h2.1, h2.2, not_lt.mp h3, Or.inl h4⟩
      · exact ⟨by omega, by omega, h2.1, h2.2, not_lt.mp h3, Or.inr h5⟩
    · rintro ⟨ha, hb, hc, hd, he, hdim⟩
      unfold gcMumfordShahChecks
      rw [if_neg (by omega), if_neg (not_not_intro ⟨hc, hd⟩),
        if_neg (not_lt.mpr he)]
      rcases hdim with h2 | h3
      · rw [if_pos h2]
      · rcases eq_or_ne dimNum 2 with h2 | h2
        · rw [if_pos h2]
        · rw [if_neg h2, if_pos h3]
  · constructor
    · intro h
      unfold gcChanVeseLabChecks at h
      rcases maskDims with _ | md
      · split_ifs at h with h1 h2 h3 h4 h5 h6 h7
        push_neg at h7
        exact ⟨h1.1, h1.2.1, h1.2.2, not_lt.mp h2, not_le.mp h3, h7,
          fun md hmd => by simp at hmd, h6⟩
      · split_ifs at h with h1 h2 h3 h4 h5 h6 h7
        push_neg at h7
        have h' : (if md ≠ imgDims then
            (Except.error "Mask and image must have the same dimensions." :
              Except String Unit) else Except.ok ()) = Except.ok () := h
        split_ifs at h' with h8
        push_neg at h8
        refine ⟨h1.1, h1.2.1, h1.2.2, not_lt.mp h2, not_le.mp h3, h7, ?_, h6⟩
        intro md' hmd'
        rw [← Option.some_inj.mp hmd']
        exact h8
    · rintro ⟨ha, hb, hc, hd, he, hf, hg, hh⟩
      unfold gcChanVeseLabChecks
      rcases maskDims with _ | md
      · rw [if_neg (not_not_intro ⟨ha, hb, hc⟩), if_neg (not_lt.mpr hd),
          if_neg (not_le.mpr he), if_neg (by simp [hf]), if_neg (by simp),
          if_pos hh, if_neg (not_not_intro hf)]
      · have hmd : md = imgDims := hg md rfl
        rw [if_neg (not_not_intro ⟨ha, hb, hc⟩), if_neg (not_lt.mpr hd),
          if_neg (not_le.mpr he), if_neg (by simp [hf]), if_neg (by simp [hmd]),
          if_pos hh, if_neg (not_not_intro hf)]
        simp [hmd]
  · constructor
    · intro h
      unfold gcRoussonDericheChecks at h
      split_ifs at h with h1 h2 h3 h4
      · exact ⟨h1.1, h1.2, not_lt.mp h2, Or.inl h3⟩
      · exact ⟨h1.1, h1.2, not_lt.mp h2, Or.inr h4⟩
    · rintro ⟨ha, hb, hc, hdim⟩
      unfold gcRoussonDericheChecks
      rw [if_neg (not_not_intro ⟨ha, hb⟩), if_neg (not_lt.mpr hc)]
      rcases hdim with h2 | h3
      · rw [if_pos h2]
      · rcases eq_or_ne dimNum 2 with h2 | h2
        · rw [if_pos h2]
        · rw [if_neg h2, if_pos h3]

/- ------------------------------- C5 ------------------------------------ -/

/-- C5 counterexample: on the two-pixel image [0, 10] with lambda1 = lambda2
= 1, conv = 12, maxiter = 30, the initial check compares (c1, c2) = (5/2,
15/2) against the sentinels (-1, -1): the delta sum is exactly 12, so the
code (guard `> conv`) stops with zero iterations, while the claim's rule
(stop only when the sum is `< conv`) performs an iteration — the two
disagree, refuting the claim as stated. -/
theorem weighted_kmeans_claim_counterexample :
    gcWeightedKmeans [0, 10] 1 1 12 30 ≠ gcWeightedKmeansClaim [0, 10] 1 1 12 30 ∧
    gcWeightedKmeans [0, 10] 1 1 12 30 = ((5/2, 15/2), 0) ∧
    gcWeightedKmeansClaim [0, 10] 1 1 12 30 = ((0, 10), 1) := by
  have e1 : (listMean [0, 10] - (listMean [0, 10] - listMin [0, 10]) / 2,
      listMean [0, 10] + (listMax [0, 10] - listMean [0, 10]) / 2) =
      ((5/2 : ℚ), (15/2 : ℚ)) := by
    norm_num [listMean, listMin, listMax]
  have e2 : ((listMin [0, 10] + listMean [0, 10]) / 2,
      (listMean [0, 10] + listMax [0, 10]) / 2) = ((5/2 : ℚ), (15/2 : ℚ)) := by
    norm_num [listMean, listMin, listMax]
  have es : kmStep [0, 10] 1 1 (5/2, 15/2) = (0, 10) := by
    norm_num [kmStep, kmR, listMean, List.filter]
  have h1 : gcWeightedKmeans [0, 10] 1 1 12 30 = ((5/2, 15/2), 0) := by
    simp only [gcWeightedKmeans]
    rw [e1, kmLoop, if_neg (by norm_num [abs_of_nonneg])]
  have h2 : gcWeightedKmeansClaim [0, 10] 1 1 12 30 = ((0, 10), 1) := by
    simp only [gcWeightedKmeansClaim]
    rw [e2, kmLoopClaim, if_neg (by norm_num [abs_of_nonneg]), es, kmLoopClaim,
      if_pos (by
        rw [show ((0:ℚ) - 5/2) = -(5/2) by norm_num, abs_neg]
        norm_num [abs_of_nonneg])]
  refine ⟨?_, h1, h2⟩
  rw [h1, h2]
  intro hcontra
  have := congrArg (fun p => p.2) hcontra
  simp at this

theorem kmLoop_eq_spec (img : List ℚ) (l1 l2 conv : ℚ) :
    ∀ (rem : ℕ) (c old : ℚ × ℚ) (iter : ℕ),
      kmLoop img l1 l2 conv rem c old iter =
        kmLoopSpec img l1 l2 conv rem c old iter := by
  intro rem
  induction rem with
  | zero => intro c old iter; rfl
  | succ n ih =>
    intro c old iter
    rw [kmLoop, kmLoopSpec]
    by_cases h : |c.1 - old.1| + |c.2 - old.2| ≤ conv
    · rw [if_neg (not_lt.mpr h), if_pos h]
    · rw [if_pos (not_le.mp h), if_neg h]
      exact ih _ _ _

/-- C5 (amended): gc_weighted_kmeans initializes c1 = (min+avg)/2 and
c2 = (avg+max)/2 from the image intensities, then repeatedly sets c1 to the
mean of intensities where R = -lambda1 (I-c1)^2 + lambda2 (I-c2)^2 is >= 0
and c2 to the mean where R < 0, stops as soon as |dc1| + |dc2| <= conv
(non-strict; the previous values are the sentinels (-1, -1) before the
first iteration) or maxiter iterations have been performed, and returns the
final (c1, c2) with the iteration count. -/
theorem weighted_kmeans_spec (img : List ℚ) (l1 l2 conv : ℚ) (maxiter : ℕ) :
    gcWeightedKmeans img l1 l2 conv maxiter =
      gcWeightedKmeansSpec img l1 l2 conv maxiter := by
  unfold gcWeightedKmeans gcWeightedKmeansSpec
  rw [kmLoop_eq_spec]
  have h1 : listMean img - (listMean img - listMin img) / 2 =
      (listMin img + listMean img) / 2 := by ring
  have h2 : listMean img + (listMax img - listMean img) / 2 =
      (listMean img + listMax img) / 2 := by ring
  rw [h1, h2]

/- ------------------------------- C7 ------------------------------------ -/

theorem maskedLabelsLoop_getD {L : Type} (nodeLabel : ℕ → L) (d : L) :
    ∀ (ms : List ℕ) (fs : List L) (j i : ℕ), i < ms.length →
      ms.length = fs.length →
      (maskedLabelsLoop nodeLabel ms fs j).getD i d =
        if ms.getD i 0 = maskUnknown then
          nodeLabel (j + (ms.take i).count maskUnknown)
        else fs.getD i d := by
  intro ms
  induction ms with
  | nil => intro fs j i hi; simp at hi
  | cons m ms ih =>
    intro fs j i hi hlen
    cases fs with
    | nil => simp at hlen
    | cons f fs =>
      cases i with
      | zero =>
        by_cases hm : m = maskUnknown
        · simp [maskedLabelsLoop, hm]
        · simp [maskedLabelsLoop, hm]
      | succ i =>
        have hi' : i < ms.length := by simpa using hi
        have hlen' : ms.length = fs.length := by simpa using hlen
        by_cases hm : m = maskUnknown
        · rw [maskedLabelsLoop, if_pos hm]
          rw [show ((nodeLabel j :: maskedLabelsLoop nodeLabel ms fs (j + 1)).getD
            (i + 1) d) = (maskedLabelsLoop nodeLabel ms fs (j + 1)).getD i d from rfl]
          rw [ih fs (j + 1) i hi' hlen']
          have hcount : ((m :: ms).take (i + 1)).count maskUnknown =
              (ms.take i).count maskUnknown + 1 := by
            simp [List.take_succ_cons, List.count_cons, hm]
          have hget : (m :: ms).getD (i + 1) 0 = ms.getD i 0 := rfl
          rw [hget, hcount]
          by_cases hm2 : ms.getD i 0 = maskUnknown
          · rw [if_pos hm2, if_pos hm2]
            congr 1
            omega
          · rw [if_neg hm2, if_neg hm2]
            rfl
        · rw [maskedLabelsLoop, if_neg hm]
          rw [show ((f :: maskedLabelsLoop nodeLabel ms fs j).getD (i + 1) d) =
            (maskedLabelsLoop nodeLabel ms fs j).getD i d from rfl]
          rw [ih fs j i hi' hlen']
          have hcount : ((m :: ms).take (i + 1)).count maskUnknown =
              (ms.take i).count maskUnknown := by
            simp [List.take_succ_cons, List.count_cons, hm]
          have hget : (m :: ms).getD (i + 1) 0 = ms.getD i 0 := rfl
          rw [hget, hcount]
          rfl

/-- C7: in the masked GcChanVeseLab variant, every position whose mask
value is not UNKNOWN (3) gets the initial labelling's value, and every
UNKNOWN position gets the max-flow solver's label for the corresponding
graph node (the count of UNKNOWN positions before it). -/
theorem masked_labels_frame {L : Type} (nodeLabel : ℕ → L)
    (mask : List ℕ) (iface : List L) (d : L) (i : ℕ)
    (hi : i < mask.length) (hlen : mask.length = iface.length) :
    (mask.getD i 0 ≠ maskUnknown →
      (gcChanVeseLabMaskedLabels nodeLabel mask iface).getD i d =
        iface.getD i d) ∧
    (mask.getD i 0 = maskUnknown →
      (gcChanVeseLabMaskedLabels nodeLabel mask iface).getD i d =
        nodeLabel ((mask.take i).count maskUnknown)) := by
  unfold gcChanVeseLabMaskedLabels
  rw [maskedLabelsLoop_getD nodeLabel d mask iface 0 i hi hlen]
  constructor
  · intro hm
    rw [if_neg hm]
  · intro hm
    rw [if_pos hm]
    congr 1
    omega

/-- C7 witness: mask [1, 3, 2, 3] with initial labels [10, 20, 30, 40] and
solver labels 100, 101, ...: position 2 (mask 2, fixed) keeps 30 and
position 3 (the second UNKNOWN) gets solver label 101. -/
theorem masked_labels_frame_witness :
    ((2 : ℕ) < ([1, 3, 2, 3] : List ℕ).length ∧
      ([1, 3, 2, 3] : List ℕ).length = ([10, 20, 30, 40] : List ℕ).length) ∧
    (([1, 3, 2, 3] : List ℕ).getD 2 0 ≠ maskUnknown →
      (gcChanVeseLabMaskedLabels (fun j => 100 + j) [1, 3, 2, 3]
        [10, 20, 30, 40]).getD 2 0 = ([10, 20, 30, 40] : List ℕ).getD 2 0) ∧
    (([1, 3, 2, 3] : List ℕ).getD 2 0 = maskUnknown →
      (gcChanVeseLabMaskedLabels (fun j => 100 + j) [1, 3, 2, 3]
        [10, 20, 30, 40]).getD 2 0 =
        (fun j => 100 + j) ((([1, 3, 2, 3] : List ℕ).take 2).count maskUnknown)) := by
  refine ⟨⟨by decide, by decide⟩, ?_, ?_⟩
  · exact (masked_labels_frame (fun j => 100 + j) [1, 3, 2, 3] [10, 20, 30, 40]
      0 2 (by decide) (by decide)).1
  · exact (masked_labels_frame (fun j => 100 + j) [1, 3, 2, 3] [10, 20, 30, 40]
      0 2 (by decide) (by decide)).2

/- ------------------------------- C10 ----------------------------------- -/

theorem listMin_lt_listMax {img : List ℚ} {x y : ℚ} (hx : x ∈ img)
    (hy : y ∈ img) (hxy : x ≠ y) : listMin img < listMax img := by
  have h1 : listMin img ≤ x := listMin_le hx
  have h2 : x ≤ listMax img := le_listMax hx
  have h3 : listMin img ≤ y := listMin_le hy
  have h4 : y ≤ listMax img := le_listMax hy
  rcases lt_or_eq_of_le (le_trans h1 h2) with h | h
  · exact h
  · exact absurd (le_antisymm (h ▸ h2) h1 ▸ le_antisymm (h ▸ h4) h3 ▸ rfl) hxy

/-- C10: gc_normalize_image returns (img - min) / (max - min) elementwise;
for an image with two distinct intensities every output is a finite value
in [0, 1] with the minimum mapped to 0 and the maximum to 1; the division
is unguarded, so a constant-intensity image makes every output the
non-finite NaN instead of producing an error. -/
theorem normalize_image_range (img : List ℚ) (hne : img ≠ []) :
    gcNormalizeImage img =
      img.map (fun x => mdiv (x - listMin img) (listMax img - listMin img)) ∧
    ((∃ x ∈ img, ∃ y ∈ img, x ≠ y) →
      ∀ x ∈ img,
        mdiv (x - listMin img) (listMax img - listMin img) =
          MVal.fin ((x - listMin img) / (listMax img - listMin img)) ∧
        0 ≤ (x - listMin img) / (listMax img - listMin img) ∧
        (x - listMin img) / (listMax img - listMin img) ≤ 1 ∧
        (x = listMin img →
          (x - listMin img) / (listMax img - listMin img) = 0) ∧
        (x = listMax img →
          (x - listMin img) / (listMax img - listMin img) = 1)) ∧
    ((∀ x ∈ img, ∀ y ∈ img, x = y) →
      ∀ v ∈ gcNormalizeImage img, v = MVal.nan) := by
  refine ⟨rfl, ?_, ?_⟩
  · rintro ⟨x0, hx0, y0, hy0, hne0⟩ x hx
    have hlt : listMin img < listMax img := listMin_lt_listMax hx0 hy0 hne0
    have hba : (0 : ℚ) < listMax img - listMin img := by linarith
    refine ⟨?_, ?_, ?_, ?_, ?_⟩
    · unfold mdiv
      rw [if_neg (ne_of_gt hba)]
    · exact div_nonneg (by linarith [listMin_le hx]) (le_of_lt hba)
    · rw [div_le_one hba]
      linarith [le_listMax hx]
    · intro hxmin
      rw [hxmin, sub_self, zero_div]
    · intro hxmax
      rw [hxmax, div_self (ne_of_gt hba)]
  · intro hconst v hv
    have hminmax : listMax img = listMin img :=
      hconst (listMax img) (listMax_mem hne) (listMin img) (listMin_mem hne)
    unfold gcNormalizeImage at hv
    simp only [List.mem_map] at hv
    obtain ⟨x, hx, hvx⟩ := hv
    have hxmin : x = listMin img := hconst x hx (listMin img) (listMin_mem hne)
    rw [← hvx, hxmin, hminmax, sub_self]
    unfold mdiv
    rw [if_pos rfl]
    rw [if_pos rfl]

/-- C10 witness: the theorem applied to the image [0, 2]: outputs are
(x - 0)/2, in [0, 1], with 0 mapped to 0; and for the constant image [7]
the output is NaN. -/
theorem normalize_image_range_witness :
    (([0, 2] : List ℚ) ≠ [] ∧
      (mdiv ((0 : ℚ) - listMin [0, 2]) (listMax [0, 2] - listMin [0, 2]) =
          MVal.fin (((0 : ℚ) - listMin [0, 2]) / (listMax [0, 2] - listMin [0, 2])) ∧
        0 ≤ ((0 : ℚ) - listMin [0, 2]) / (listMax [0, 2] - listMin [0, 2]) ∧
        ((0 : ℚ) - listMin [0, 2]) / (listMax [0, 2] - listMin [0, 2]) ≤ 1 ∧
        ((0 : ℚ) = listMin [0, 2] →
          ((0 : ℚ) - listMin [0, 2]) / (listMax [0, 2] - listMin [0, 2]) = 0) ∧
        ((0 : ℚ) = listMax [0, 2] →
          ((0 : ℚ) - listMin [0, 2]) / (listMax [0, 2] - listMin [0, 2]) = 1))) ∧
    (([7] : List ℚ) ≠ [] ∧
      ∀ v ∈ gcNormalizeImage [7], v = MVal.nan) := by
  constructor
  · refine ⟨by simp, ?_⟩
    refine (normalize_image_range [0, 2] (by simp)).2.1 ?_ 0 (by simp)
    exact ⟨0, by simp, 2, by simp, by norm_num⟩
  · refine ⟨by simp, ?_⟩
    refine (normalize_image_range [7] (by simp)).2.2 ?_
    intro x hx y hy
    simp at hx hy
    rw [hx, hy]

/- ------------------------------- C1 ------------------------------------ -/

/-- C1: for every direction i and every symmetric positive definite
transform M, `SetTransformationMatrix` sets the weight of direction i to
(phi_i * drho_i) / K_N, where phi_i is the hyperspherical Voronoi
solid-angle share of the normalized transformed direction over the
transformed direction set, drho_i = det(M) / |M d_i|, and K_2 = 2,
K_3 = pi: the code's weight equals the spec's
det(M) * (phi_i * (1/rho_i)) / K_N with rho_i = |M d_i|. -/
theorem riemannian_danek_weights {n : ℕ} (nb : ℕ → Fin n → ℝ)
    (voronoi : (ℕ → Fin n → ℝ) → ℕ → ℝ) (mt : Matrix (Fin n) (Fin n) ℝ)
    (hn : n = 2 ∨ n = 3) (hspd : IsSPD mt) :
    (∀ i, setTransformationMatrix nb voronoi mt i =
      voronoi (fun j => normalizedVec (mt.mulVec (nb j))) i *
        (mt.det / vecLen (mt.mulVec (nb i))) / cauchyCroftonCoef n) ∧
    (∀ i, setTransformationMatrix nb voronoi mt i =
      specRiemannianWeight nb voronoi mt i) ∧
    cauchyCroftonCoef 2 = 2 ∧ cauchyCroftonCoef 3 = Real.pi := by
  refine ⟨fun i => rfl, ?_, rfl, rfl⟩
  intro i
  simp only [setTransformationMatrix, specRiemannianWeight]
  ring

theorem isSPD_one : IsSPD (1 : Matrix (Fin 2) (Fin 2) ℝ) := by
  constructor
  · exact Matrix.isSymm_one
  · intro v hv
    rw [Matrix.one_mulVec]
    have hne : Matrix.dotProduct v v ≠ 0 :=
      fun h => hv (Matrix.dotProduct_self_eq_zero.mp h)
    have hge : 0 ≤ Matrix.dotProduct v v :=
      Finset.sum_nonneg fun i _ => mul_self_nonneg (v i)
    exact lt_of_le_of_ne hge (Ne.symm hne)

/-- C1 witness: the theorem applied in dimension 2 to the identity
transform (symmetric positive definite) with a one-direction table and a
constant Voronoi share. -/
theorem riemannian_danek_weights_witness :
    ((2 = 2 ∨ 2 = 3) ∧ IsSPD (1 : Matrix (Fin 2) (Fin 2) ℝ)) ∧
    ((∀ i, setTransformationMatrix (fun _ (_ : Fin 2) => (1 : ℝ))
        (fun _ _ => (1 : ℝ)) (1 : Matrix (Fin 2) (Fin 2) ℝ) i =
      (fun (_ : ℕ → Fin 2 → ℝ) (_ : ℕ) => (1 : ℝ)) (fun j => normalizedVec
          ((1 : Matrix (Fin 2) (Fin 2) ℝ).mulVec
            ((fun _ (_ : Fin 2) => (1 : ℝ)) j))) i *
        ((1 : Matrix (Fin 2) (Fin 2) ℝ).det /
          vecLen ((1 : Matrix (Fin 2) (Fin 2) ℝ).mulVec
            ((fun _ (_ : Fin 2) => (1 : ℝ)) i))) /
        cauchyCroftonCoef 2) ∧
    (∀ i, setTransformationMatrix (fun _ (_ : Fin 2) => (1 : ℝ))
        (fun _ _ => (1 : ℝ)) (1 : Matrix (Fin 2) (Fin 2) ℝ) i =
      specRiemannianWeight (fun _ (_ : Fin 2) => (1 : ℝ)) (fun _ _ => (1 : ℝ))
        (1 : Matrix (Fin 2) (Fin 2) ℝ) i) ∧
    cauchyCroftonCoef 2 = 2 ∧ cauchyCroftonCoef 3 = Real.pi) :=
  ⟨⟨Or.inl rfl, isSPD_one⟩,
    riemannian_danek_weights (fun _ (_ : Fin 2) => (1 : ℝ)) (fun _ _ => (1 : ℝ))
      (1 : Matrix (Fin 2) (Fin 2) ℝ) (Or.inl rfl) isSPD_one⟩

/- ------------------------------- C2 ------------------------------------ -/

theorem cvLoop_count_le (upd : ℚ × ℚ → ℚ × ℚ) (conv : ℚ) :
    ∀ (fuel : ℕ) (c : ℚ × ℚ) (iter : ℕ),
      (cvLoop upd conv fuel c iter).2 ≤ iter + fuel := by
  intro fuel
  induction fuel with
  | zero => intro c iter; simp [cvLoop]
  | succ f ih =>
    intro c iter
    simp only [cvLoop]
    by_cases h : |(upd c).1 - c.1| + |(upd c).2 - c.2| ≤ conv
    · rw [if_pos h]
      omega
    · rw [if_neg h]
      have := ih (upd c) (iter + 1)
      omega

theorem cvLoop_early (upd : ℚ × ℚ → ℚ × ℚ) (conv : ℚ) :
    ∀ (fuel : ℕ) (c : ℚ × ℚ) (iter k : ℕ), 1 ≤ k → k < fuel →
      cvMet upd c conv k → (cvLoop upd conv fuel c iter).2 < iter + fuel := by
  intro fuel
  induction fuel with
  | zero => intro c iter k hk1 hk2; omega
  | succ f ih =>
    intro c iter k hk1 hk2 hmet
    obtain ⟨m, rfl⟩ : ∃ m, k = m + 1 := ⟨k - 1, by omega⟩
    simp only [cvLoop]
    by_cases h : |(upd c).1 - c.1| + |(upd c).2 - c.2| ≤ conv
    · rw [if_pos h]
      omega
    · rw [if_neg h]
      rcases Nat.eq_zero_or_pos m with hm | hm
      · subst hm
        unfold cvMet at hmet
        simp only [Function.iterate_one, Function.iterate_zero, id_eq,
          Nat.sub_self] at hmet
        exact absurd hmet h
      · obtain ⟨m', rfl⟩ : ∃ m', m = m' + 1 := ⟨m - 1, by omega⟩
        have hmet' : cvMet upd (upd c) conv (m' + 1) := by
          unfold cvMet at hmet ⊢
          simp only [Nat.add_sub_cancel] at hmet ⊢
          simp only [Function.iterate_succ_apply] at hmet ⊢
          exact hmet
        have := ih (upd c) (iter + 1) (m' + 1) (by omega) (by omega) hmet'
        omega

/-- C2: each driver's 'iterations performed' output is exactly the number
of outer iterations the segmentation routine performed (the routine writes
it back into the max_iter variable the driver then emits); the count never
exceeds max_iter, and whenever the convergence threshold is met at some
iteration strictly before max_iter, the returned count is strictly less
than max_iter. -/
theorem driver_iterations_output (upd : ℚ × ℚ → ℚ × ℚ) (conv : ℚ)
    (maxIter : ℕ) (c0 : ℚ × ℚ) :
    gcChanVeseLabIterOut upd conv maxIter c0 =
      (chanVeseCompute upd conv maxIter c0).2 ∧
    gcRoussonDericheIterOut upd conv maxIter c0 =
      (chanVeseCompute upd conv maxIter c0).2 ∧
    gcMumfordShahIterOut upd conv maxIter c0 =
      (chanVeseCompute upd conv maxIter c0).2 ∧
    (chanVeseCompute upd conv maxIter c0).2 ≤ maxIter ∧
    (∀ k, 1 ≤ k → k < maxIter → cvMet upd c0 conv k →
      (chanVeseCompute upd conv maxIter c0).2 < maxIter) := by
  refine ⟨rfl, rfl, rfl, ?_, ?_⟩
  · have := cvLoop_count_le upd conv maxIter c0 0
    simpa [chanVeseCompute] using this
  · intro k hk1 hk2 hmet
    have := cvLoop_early upd conv maxIter c0 0 k hk1 hk2 hmet
    simpa [chanVeseCompute] using this

/-- C2 witness: with the identity re-estimation, conv = 0, max_iter = 2 and
seed (0, 0), the threshold is met at iteration 1 < 2, and the returned
count (1) is strictly below max_iter. -/
theorem driver_iterations_output_witness :
    ((1 : ℕ) ≤ 1 ∧ 1 < 2 ∧ cvMet id ((0 : ℚ), (0 : ℚ)) 0 1) ∧
    gcChanVeseLabIterOut id 0 2 ((0 : ℚ), (0 : ℚ)) =
      (chanVeseCompute id 0 2 ((0 : ℚ), (0 : ℚ))).2 ∧
    (chanVeseCompute id 0 2 ((0 : ℚ), (0 : ℚ))).2 ≤ 2 ∧
    (chanVeseCompute id 0 2 ((0 : ℚ), (0 : ℚ))).2 < 2 :=
  ⟨⟨le_refl 1, by omega, by simp [cvMet]⟩,
    (driver_iterations_output id 0 2 ((0 : ℚ), (0 : ℚ))).1,
    (driver_iterations_output id 0 2 ((0 : ℚ), (0 : ℚ))).2.2.2.1,
    (driver_iterations_output id 0 2 ((0 : ℚ), (0 : ℚ))).2.2.2.2 1
      (le_refl 1) (by omega) (by simp [cvMet])⟩

/- ------------------------------- C6 ------------------------------------ -/

theorem distTransform_self_zero {h w d : ℕ} (seg : GridPos h w d → Bool)
    (p : GridPos h w d) : distTransform seg (seg p) p = 0 := by
  have hmem : p ∈ Finset.univ.filter (fun q => seg q = seg p) := by
    simp
  have hle : distTransform seg (seg p) p ≤ (cityDist p p : WithTop ℕ) :=
    Finset.inf_le hmem
  have hself : cityDist p p = 0 := by
    simp [cityDist, Nat.dist_self]
  rw [hself] at hle
  exact le_antisymm (by exact_mod_cast hle) (zero_le _)

theorem band_mask_cases {h w d : ℕ} (seg : GridPos h w d → Bool)
    (bandradius : ℕ) (p : GridPos h w d) :
    (bandMask seg bandradius p = 2 ↔
      (bandradius : WithTop ℕ) < distTransform seg false p) ∧
    (bandMask seg bandradius p = 1 ↔
      (bandradius : WithTop ℕ) < distTransform seg true p) ∧
    (bandMask seg bandradius p = 3 ↔
      (¬ (bandradius : WithTop ℕ) < distTransform seg false p ∧
       ¬ (bandradius : WithTop ℕ) < distTransform seg true p)) := by
  have hnot0 : ¬ (bandradius : WithTop ℕ) < 0 := not_lt.mpr (zero_le _)
  simp only [bandMask]
  by_cases h1 : (bandradius : WithTop ℕ) < distTransform seg true p
  · rw [if_pos h1]
    have hsegp : seg p = false := by
      by_contra hc
      rw [Bool.not_eq_false] at hc
      rw [← hc, distTransform_self_zero] at h1
      exact hnot0 h1
    have hB : distTransform seg false p = 0 := by
      rw [← hsegp]
      exact distTransform_self_zero seg p
    rw [hB]
    constructor
    · exact iff_of_false (by omega) hnot0
    · constructor
      · exact iff_of_true rfl h1
      · exact iff_of_false (by omega) (fun hc => hc.2 h1)
  · rw [if_neg h1]
    by_cases h2 : (bandradius : WithTop ℕ) < distTransform seg false p
    · rw [if_pos h2]
      refine ⟨iff_of_true rfl h2, iff_of_false (by omega) h1, ?_⟩
      exact iff_of_false (by omega) (fun hc => hc.1 h2)
    · rw [if_neg h2]
      refine ⟨iff_of_false (by omega) h2, iff_of_false (by omega) h1, ?_⟩
      exact iff_of_true rfl ⟨h2, h1⟩

/-- C6: after the first stage of gc_chan_vese_two_stage, the second-stage
mask is FOREGROUND_FIXED (2) exactly where the cityblock distance to the
nearest first-stage background pixel exceeds bandradius, BACKGROUND_FIXED
(1) exactly where the distance to the nearest first-stage foreground pixel
exceeds bandradius, UNKNOWN (3) everywhere else; and the second stage is
the GcChanVese call on that mask with the denser neighbourhood nb2 (and
flow2). -/
theorem two_stage_band_mask {h w d : ℕ}
    (gcChanVese : ℚ → ℚ → ℚ → ℚ → ℚ → ℕ → String → String →
      Option (GridPos h w d → ℕ) → CVResult h w d)
    (mu l1 l2 : ℚ) (bandradius : ℕ) (nb1 nb2 flow1 flow2 : String)
    (conv1 conv2 : ℚ) (maxiter1 maxiter2 : ℕ) (c1 c2 : ℚ) :
    (∀ (seg : GridPos h w d → Bool) (p : GridPos h w d),
      (bandMask seg bandradius p = 2 ↔
        (bandradius : WithTop ℕ) < distTransform seg false p) ∧
      (bandMask seg bandradius p = 1 ↔
        (bandradius : WithTop ℕ) < distTransform seg true p) ∧
      (bandMask seg bandradius p = 3 ↔
        (¬ (bandradius : WithTop ℕ) < distTransform seg false p ∧
         ¬ (bandradius : WithTop ℕ) < distTransform seg true p))) ∧
    gcChanVeseTwoStage gcChanVese mu l1 l2 bandradius nb1 nb2 flow1 flow2
        conv1 conv2 maxiter1 maxiter2 c1 c2 =
      (gcChanVese (l1 / mu) (l2 / mu)
        (gcChanVese (l1 / mu) (l2 / mu) c1 c2 conv1 maxiter1 nb1 flow1 none).cOne
        (gcChanVese (l1 / mu) (l2 / mu) c1 c2 conv1 maxiter1 nb1 flow1 none).cTwo
        conv2 maxiter2 nb2 flow2
        (some (bandMask
          (gcChanVese (l1 / mu) (l2 / mu) c1 c2 conv1 maxiter1 nb1 flow1 none).seg
          bandradius)),
       (gcChanVese (l1 / mu) (l2 / mu) c1 c2 conv1 maxiter1 nb1 flow1 none).iter) :=
  ⟨fun seg p => band_mask_cases seg bandradius p, rfl⟩

/- ------------------------------- C8 ------------------------------------ -/

theorem grid_decomp_unique {mx x x' y y' : ℕ} (hx : x < mx) (hx' : x' < mx)
    (h : x + mx * y = x' + mx * y') : x = x' ∧ y = y' := by
  have hmod : (x + mx * y) % mx = x := by
    rw [Nat.add_mul_mod_self_left, Nat.mod_eq_of_lt hx]
  have hmod' : (x' + mx * y') % mx = x' := by
    rw [Nat.add_mul_mod_self_left, Nat.mod_eq_of_lt hx']
  have hxx : x = x' := by rw [← hmod, ← hmod', h]
  refine ⟨hxx, ?_⟩
  have hmul : mx * y = mx * y' := by omega
  exact Nat.eq_of_mul_eq_mul_left (by omega) hmul

theorem pos_lt_slice {mx my x y : ℕ} (hx : x < mx) (hy : y < my) :
    x + mx * y < mx * my := by
  calc x + mx * y < mx + mx * y := by omega
    _ = mx * (y + 1) := by ring
    _ ≤ mx * my := Nat.mul_le_mul_left mx (by omega)

theorem giY_counters {α : Type} (mx : ℕ) (m : ℕ → α) :
    ∀ (cnt : ℕ) (out : ℕ → α) (dipos dpos : ℕ),
      (giY mx m cnt out dipos dpos).2 = (dipos + cnt, dpos + mx * cnt) := by
  intro cnt
  induction cnt with
  | zero => intro out dipos dpos; simp [giY]
  | succ k ih =>
    intro out dipos dpos
    rw [giY, ih]
    refine Prod.ext ?_ ?_ <;> simp <;> ring

theorem giY_frame {α : Type} (mx : ℕ) (m : ℕ → α) :
    ∀ (cnt : ℕ) (out : ℕ → α) (dipos dpos j : ℕ),
      (∀ k < cnt, j ≠ dpos + mx * k) →
      (giY mx m cnt out dipos dpos).1 j = out j := by
  intro cnt
  induction cnt with
  | zero => intro out dipos dpos j _; rfl
  | succ k ih =>
    intro out dipos dpos j hj
    rw [giY, ih]
    · exact Function.update_noteq (by have := hj 0 (by omega); simpa using this) _ _
    · intro k' hk'
      have := hj (k' + 1) (by omega)
      intro hcontra
      exact this (by rw [hcontra]; ring)

theorem giY_write {α : Type} (mx : ℕ) (m : ℕ → α) (hmx : 1 ≤ mx) :
    ∀ (cnt : ℕ) (out : ℕ → α) (dipos dpos k : ℕ), k < cnt →
      (giY mx m cnt out dipos dpos).1 (dpos + mx * k) = m (dipos + k) := by
  intro cnt
  induction cnt with
  | zero => intro out dipos dpos k hk; omega
  | succ c ih =>
    intro out dipos dpos k hk
    rw [giY]
    cases k with
    | zero =>
      rw [giY_frame]
      · simp
      · intro k' hk'
        intro hcontra
        simp only [Nat.mul_zero, Nat.add_zero] at hcontra
        omega
    | succ k' =>
      have := ih (Function.update out dpos (m dipos)) (dipos + 1) (dpos + mx) k'
        (by omega)
      rw [show dpos + mx * (k' + 1) = dpos + mx + mx * k' from by ring]
      rw [this]
      congr 1
      omega

theorem giX_counters {α : Type} (mx my : ℕ) (m : ℕ → α) (hmx : 1 ≤ mx)
    (hmy : 1 ≤ my) :
    ∀ (cnt : ℕ) (out : ℕ → α) (dipos dpos : ℕ),
      (giX mx my m cnt out dipos dpos).2 = (dipos + my * cnt, dpos + cnt) := by
  intro cnt
  induction cnt with
  | zero => intro out dipos dpos; simp [giX]
  | succ k ih =>
    intro out dipos dpos
    rw [giX]
    simp only [giY_counters]
    rw [ih]
    have hs : 1 ≤ mx * my := Nat.one_le_iff_ne_zero.mpr (by positivity)
    refine Prod.ext ?_ ?_ <;> simp
    · ring
    · omega

theorem giX_frame {α : Type} (mx my : ℕ) (m : ℕ → α) (hmx : 1 ≤ mx)
    (hmy : 1 ≤ my) :
    ∀ (cnt : ℕ) (out : ℕ → α) (dipos dpos j : ℕ),
      (∀ x < cnt, ∀ y < my, j ≠ dpos + x + mx * y) →
      (giX mx my m cnt out dipos dpos).1 j = out j := by
  have hs : 1 ≤ mx * my := Nat.mul_pos hmx hmy
  intro cnt
  induction cnt with
  | zero => intro out dipos dpos j _; rfl
  | succ k ih =>
    intro out dipos dpos j hj
    rw [giX]
    simp only [giY_counters]
    rw [ih]
    · rw [giY_frame]
      intro y hy
      have := hj 0 (by omega) y hy
      simpa using this
    · intro x hx y hy
      have := hj (x + 1) (by omega) y hy
      intro hcontra
      apply this
      rw [hcontra]
      omega

theorem giX_write {α : Type} (mx my : ℕ) (m : ℕ → α) (hmx : 1 ≤ mx)
    (hmy : 1 ≤ my) :
    ∀ (cnt : ℕ), cnt ≤ mx → ∀ (out : ℕ → α) (dipos dpos x : ℕ), x < cnt →
      ∀ y < my,
      (giX mx my m cnt out dipos dpos).1 (dpos + x + mx * y) =
        m (dipos + my * x + y) := by
  intro cnt
  induction cnt with
  | zero => intro _ out dipos dpos x hx; omega
  | succ c ih =>
    intro hcnt out dipos dpos x hx y hy
    rw [giX]
    simp only [giY_counters]
    cases x with
    | zero =>
      rw [giX_frame mx my m hmx hmy]
      · rw [show dpos + 0 + mx * y = dpos + mx * y from by ring,
          show dipos + my * 0 + y = dipos + y from by ring]
        exact giY_write mx m hmx my out dipos dpos y hy
      · intro x' hx' y' hy'
        intro hcontra
        have hs : 1 ≤ mx * my := Nat.mul_pos hmx hmy
        have heq : 0 + mx * y = (x' + 1) + mx * y' := by omega
        have := grid_decomp_unique (show 0 < mx from hmx)
          (show x' + 1 < mx from by omega) heq
        omega
    | succ x' =>
      have hstep := ih (by omega) (giY mx m my out dipos dpos).1 (dipos + my)
        (dpos + mx * my - (mx * my - 1)) x' (by omega) y hy
      have hs : 1 ≤ mx * my := Nat.mul_pos hmx hmy
      rw [show dpos + (x' + 1) + mx * y =
        (dpos + mx * my - (mx * my - 1)) + x' + mx * y from by omega,
        show dipos + my * (x' + 1) + y = (dipos + my) + my * x' + y from by
          rw [Nat.mul_succ]; omega]
      exact hstep

theorem giI_frame {α : Type} (mx my : ℕ) (m : ℕ → α) (hmx : 1 ≤ mx)
    (hmy : 1 ≤ my) :
    ∀ (cnt : ℕ) (out : ℕ → α) (dipos dpos j : ℕ),
      (∀ i < cnt, ∀ x < mx, ∀ y < my, j ≠ dpos + i * (mx * my) + x + mx * y) →
      (giI mx my m cnt out dipos dpos).1 j = out j := by
  have hs : 1 ≤ mx * my := Nat.mul_pos hmx hmy
  have hsx : mx ≤ mx * my := Nat.le_mul_of_pos_right mx hmy
  intro cnt
  induction cnt with
  | zero => intro out dipos dpos j _; rfl
  | succ k ih =>
    intro out dipos dpos j hj
    rw [giI]
    simp only [giX_counters mx my m hmx hmy]
    rw [ih]
    · rw [giX_frame mx my m hmx hmy]
      intro x hx y hy
      have := hj 0 (by omega) x hx y hy
      intro hcontra
      apply this
      rw [hcontra]
      ring
    · intro i' hi' x hx y hy
      have := hj (i' + 1) (by omega) x hx y hy
      intro hcontra
      apply this
      rw [hcontra]
      rw [Nat.succ_mul]
      omega

theorem giI_write {α : Type} (mx my : ℕ) (m : ℕ → α) (hmx : 1 ≤ mx)
    (hmy : 1 ≤ my) :
    ∀ (cnt : ℕ) (out : ℕ → α) (dipos dpos i x y : ℕ), i < cnt → x < mx →
      y < my →
      (giI mx my m cnt out dipos dpos).1 (dpos + i * (mx * my) + x + mx * y) =
        m (dipos + i * (mx * my) + my * x + y) := by
  have hs : 1 ≤ mx * my := Nat.mul_pos hmx hmy
  have hsx : mx ≤ mx * my := Nat.le_mul_of_pos_right mx hmy
  intro cnt
  induction cnt with
  | zero => intro out dipos dpos i x y hi; omega
  | succ c ih =>
    intro out dipos dpos i x y hi hx hy
    rw [giI]
    simp only [giX_counters mx my m hmx hmy]
    cases i with
    | zero =>
      rw [giI_frame mx my m hmx hmy]
      · rw [show dpos + 0 * (mx * my) + x + mx * y = dpos + x + mx * y from by
          ring,
          show dipos + 0 * (mx * my) + my * x + y = dipos + my * x + y from by
            ring]
        exact giX_write mx my m hmx hmy mx (le_refl mx) out dipos dpos x hx y hy
      · intro i' hi' x' hx' y' hy'
        intro hcontra
        have h1 : x + mx * y < mx * my := pos_lt_slice hx hy
        rw [show (0 : ℕ) * (mx * my) = 0 from by ring] at hcontra
        omega
    | succ i' =>
      have hstep := ih (giX mx my m mx out dipos dpos).1 (dipos + my * mx)
        (dpos + mx + (mx * my - mx)) i' x y (by omega) hx hy
      have hcm : my * mx = mx * my := Nat.mul_comm my mx
      rw [show dpos + (i' + 1) * (mx * my) + x + mx * y =
        (dpos + mx + (mx * my - mx)) + i' * (mx * my) + x + mx * y from by
          rw [Nat.succ_mul]; omega,
        show dipos + (i' + 1) * (mx * my) + my * x + y =
          (dipos + my * mx) + i' * (mx * my) + my * x + y from by
            rw [Nat.succ_mul]; omega]
      exact hstep

theorem getImage_val {α : Type} (mx my ns : ℕ) (dflt : α) (m : ℕ → α)
    (hmx : 1 ≤ mx) (hmy : 1 ≤ my) (i x y : ℕ) (hi : i < ns) (hx : x < mx)
    (hy : y < my) :
    getImage mx my ns dflt m (i * (mx * my) + x + mx * y) =
      m (i * (mx * my) + my * x + y) := by
  unfold getImage
  have := giI_write mx my m hmx hmy ns (fun _ => dflt) 0 0 i x y hi hx hy
  simpa using this

theorem siX_eq_giY {α : Type} (my : ℕ) (g : ℕ → α) :
    ∀ (cnt : ℕ) (out : ℕ → α) (dipos dpos : ℕ),
      siX my g cnt out dipos dpos = giY my g cnt out dipos dpos := by
  intro cnt
  induction cnt with
  | zero => intro out dipos dpos; rfl
  | succ k ih => intro out dipos dpos; rw [siX, giY, ih]

theorem siY_eq_giX {α : Type} (mx my : ℕ) (g : ℕ → α) :
    ∀ (cnt : ℕ) (out : ℕ → α) (dipos dpos : ℕ),
      siY mx my g cnt out dipos dpos = giX my mx g cnt out dipos dpos := by
  intro cnt
  induction cnt with
  | zero => intro out dipos dpos; rfl
  | succ k ih =>
    intro out dipos dpos
    rw [siY, giX, siX_eq_giY, ih, Nat.mul_comm mx my]

theorem siI_eq_giI {α : Type} (mx my : ℕ) (g : ℕ → α) :
    ∀ (cnt : ℕ) (out : ℕ → α) (dipos dpos : ℕ),
      siI mx my g cnt out dipos dpos = giI my mx g cnt out dipos dpos := by
  intro cnt
  induction cnt with
  | zero => intro out dipos dpos; rfl
  | succ k ih =>
    intro out dipos dpos
    rw [siI, giI, siY_eq_giX, ih, Nat.mul_comm mx my]

theorem setImage_eq_getImage {α : Type} (mx my ns : ℕ) (dflt : α)
    (g : ℕ → α) : setImage mx my ns dflt g = getImage my mx ns dflt g := by
  unfold setImage getImage
  rw [siI_eq_giI]

/-- C8: GetImage lays MATLAB element (y, x, slice i) at Gc position
x + mx*y + i*mx*my (transposing the X and Y axes), SetImage lays Gc element
(x, y, slice i) back at MATLAB position y + my*x + i*mx*my (the inverse
transposition; SetImage is GetImage with the two axes swapped), and their
composition restores every element to its original MATLAB position, for
all 2-D (ns = 1) and 3-D arrays. -/
theorem image_roundtrip {α : Type} (mx my ns : ℕ) (hmx : 1 ≤ mx)
    (hmy : 1 ≤ my) (d1 d2 : α) (m : ℕ → α) (i x y : ℕ) (hi : i < ns)
    (hx : x < mx) (hy : y < my) :
    getImage mx my ns d1 m (i * (mx * my) + x + mx * y) =
      m (i * (mx * my) + my * x + y) ∧
    setImage mx my ns d2 m (i * (mx * my) + y + my * x) =
      m (i * (mx * my) + mx * y + x) ∧
    setImage mx my ns d2 (getImage mx my ns d1 m)
        (i * (mx * my) + y + my * x) =
      m (i * (mx * my) + y + my * x) := by
  have hget := getImage_val mx my ns d1 m hmx hmy i x y hi hx hy
  have hset : setImage mx my ns d2 m (i * (mx * my) + y + my * x) =
      m (i * (mx * my) + mx * y + x) := by
    rw [setImage_eq_getImage]
    have := getImage_val my mx ns d2 m hmy hmx i y x hi hy hx
    rw [show i * (my * mx) + y + my * x = i * (mx * my) + y + my * x from by
      rw [Nat.mul_comm my mx],
      show i * (my * mx) + mx * y + x = i * (mx * my) + mx * y + x from by
      rw [Nat.mul_comm my mx]] at this
    exact this
  refine ⟨hget, hset, ?_⟩
  have hset2 : setImage mx my ns d2 (getImage mx my ns d1 m)
      (i * (mx * my) + y + my * x) =
      getImage mx my ns d1 m (i * (mx * my) + mx * y + x) := by
    rw [setImage_eq_getImage]
    have := getImage_val my mx ns d2 (getImage mx my ns d1 m) hmy hmx i y x
      hi hy hx
    rw [show i * (my * mx) + y + my * x = i * (mx * my) + y + my * x from by
      rw [Nat.mul_comm my mx],
      show i * (my * mx) + mx * y + x = i * (mx * my) + mx * y + x from by
      rw [Nat.mul_comm my mx]] at this
    exact this
  rw [hset2]
  rw [show i * (mx * my) + mx * y + x = i * (mx * my) + x + mx * y from by
    omega]
  rw [hget]
  congr 1
  omega

/-- C8 witness: the theorem applied to a 3x2x2 MATLAB array (my = 3, mx = 2,
two slices) with the identity content function, at slice 1, x = 1, y = 2. -/
theorem image_roundtrip_witness :
    ((1 : ℕ) ≤ 2 ∧ (1 : ℕ) ≤ 3 ∧ (1 : ℕ) < 2 ∧ (1 : ℕ) < 2 ∧ (2 : ℕ) < 3) ∧
    (getImage 2 3 2 0 (fun j => j) (1 * (2 * 3) + 1 + 2 * 2) =
      (fun j => j) (1 * (2 * 3) + 3 * 1 + 2) ∧
    setImage 2 3 2 0 (fun j => j) (1 * (2 * 3) + 2 + 3 * 1) =
      (fun j => j) (1 * (2 * 3) + 2 * 2 + 1) ∧
    setImage 2 3 2 0 (getImage 2 3 2 0 (fun j => j))
        (1 * (2 * 3) + 2 + 3 * 1) =
      (fun j => j) (1 * (2 * 3) + 2 + 3 * 1)) :=
  ⟨⟨by omega, by omega, by omega, by omega, by omega⟩,
    image_roundtrip 2 3 2 (by omega) (by omega) 0 0 (fun j => j) 1 1 2
      (by omega) (by omega) (by omega)⟩

/- ------------------------------- C9 ------------------------------------ -/

theorem isDesc_self (r : ℕ) : isDesc r r := by
  unfold isDesc
  simp

theorem isDesc_le {r j : ℕ} (h : isDesc r j) : r ≤ j := by
  induction j using Nat.strong_induction_on with
  | _ j ih =>
    unfold isDesc at h
    split at h
    · have := ih (pIdx j) (by simp only [pIdx]; omega) h
      omega
    · omega

theorem isDesc_trans {a b c : ℕ} (h1 : isDesc a b) (h2 : isDesc b c) :
    isDesc a c := by
  induction c using Nat.strong_induction_on with
  | _ c ih =>
    unfold isDesc at h2
    split at h2
    · rename_i hbc
      have hab := isDesc_le h1
      unfold isDesc
      rw [dif_pos (by omega)]
      exact ih (pIdx c) (by simp only [pIdx]; omega) h2
    · subst h2
      exact h1

theorem notDesc_of_lt {r j : ℕ} (h : j < r) : ¬ isDesc r j :=
  fun hd => absurd (isDesc_le hd) (by omega)

theorem notDesc_of_parent_lt {c j : ℕ} (hp : pIdx j < c) (hne : j ≠ c) :
    ¬ isDesc c j := by
  intro h
  unfold isDesc at h
  split at h
  · exact absurd (isDesc_le h) (by omega)
  · exact hne h

theorem pIdx_child {index c : ℕ} (hc : c = 2 * index + 1 ∨ c = 2 * index + 2) :
    pIdx c = index := by
  simp only [pIdx]
  omega

theorem isDesc_child {index c : ℕ}
    (hc : c = 2 * index + 1 ∨ c = 2 * index + 2) : isDesc index c := by
  unfold isDesc
  rw [dif_pos (by omega)]
  rw [pIdx_child hc]
  exact isDesc_self index

theorem child_of_pIdx {index dd : ℕ} (hp : pIdx dd = index) (hne : dd ≠ index) :
    dd = 2 * index + 1 ∨ dd = 2 * index + 2 := by
  simp only [pIdx] at hp
  omega

theorem lt_of_pIdx_lt {q dd : ℕ} (hp : pIdx dd = q) (hq : 0 < dd) : q < dd := by
  simp only [pIdx] at hp
  omega

theorem perm_fix_lt {σ : Equiv.Perm ℕ} {n : ℕ} (hfix : ∀ j, n ≤ j → σ j = j)
    {i : ℕ} (hi : i < n) : σ i < n := by
  by_contra hge
  push_neg at hge
  have := hfix (σ i) hge
  have : σ i = i := σ.injective (by rw [this])
  omega

theorem sift_base {α γ : Type} [LinearOrder α] (a : ℕ → α) (b : ℕ → γ)
    (t1 : α) (t2 : γ) (n index : ℕ)
    (hch : ∀ dd, dd < n → pIdx dd = index → dd ≠ index → a dd ≤ t1)
    (hQ : ∀ c, c < n → index < pIdx c → a c ≤ a (pIdx c)) :
    SiftSpec a b t1 t2 n index
      (Function.update a index t1, Function.update b index t2) := by
  refine ⟨Equiv.refl ℕ, fun j _ => rfl, fun j _ => rfl, fun j => rfl,
    fun j => rfl, ?_, ?_⟩
  · intro c hc hqc
    show Function.update a index t1 c ≤ Function.update a index t1 (pIdx c)
    by_cases hceq : c = index
    · -- c = index: index ≤ pIdx index forces pIdx c = c, reflexivity
      have hpi : pIdx c = c := by
        have h1 : pIdx c ≤ c := by simp only [pIdx]; omega
        omega
      rw [hpi]
    · have hc0 : 0 < c := by
        rcases Nat.eq_zero_or_pos c with h0 | h0
        · exfalso
          rw [h0] at hqc
          simp only [pIdx] at hqc
          apply hceq
          omega
        · exact h0
      have hqlt : pIdx c < c := by simp only [pIdx]; omega
      rcases eq_or_lt_of_le hqc with hq | hq
      · rw [Function.update_noteq hceq, ← hq, Function.update_same]
        exact hch c hc hq.symm hceq
      · rw [Function.update_noteq hceq,
          Function.update_noteq (by omega : pIdx c ≠ index)]
        exact hQ c hc hq
  · intro B hB _
    show Function.update a index t1 index ≤ B
    rw [Function.update_same]
    exact hB

theorem sift_step {α γ : Type} [LinearOrder α] (a : ℕ → α) (b : ℕ → γ)
    (t1 : α) (t2 : γ) (n index c : ℕ)
    (hc : c = 2 * index + 1 ∨ c = 2 * index + 2) (hcn : c < n)
    (hmax : ∀ o, o < n → pIdx o = index → o ≠ index → a o ≤ a c)
    (ht : t1 < a c)
    (hQ : ∀ d, d < n → index < pIdx d → a d ≤ a (pIdx d))
    (hrec : SiftSpec (Function.update a index (a c))
      (Function.update b index (b c)) t1 t2 n c
      (simSift (Function.update a index (a c))
        (Function.update b index (b c)) t1 t2 n c)) :
    SiftSpec a b t1 t2 n index
      (simSift (Function.update a index (a c))
        (Function.update b index (b c)) t1 t2 n c) := by
  obtain ⟨σ', p1, p2, p3, p4, p5, p6⟩ := hrec
  set a' := Function.update a index (a c) with ha'
  set b' := Function.update b index (b c) with hb'
  set r := simSift a' b' t1 t2 n c with hr
  have hic : index < c := by omega
  have hine : index ≠ c := by omega
  have hpc : pIdx c = index := pIdx_child hc
  have hdesc_c : isDesc index c := isDesc_child hc
  -- the combined update seen through the swap
  have hswapa : ∀ kk, Function.update a' c t1 kk =
      Function.update a index t1 (Equiv.swap index c kk) := by
    intro kk
    by_cases hk1 : kk = c
    · rw [hk1, Function.update_same, Equiv.swap_apply_right,
        Function.update_same]
    · by_cases hk2 : kk = index
      · rw [hk2, Function.update_noteq hine, ha', Function.update_same,
          Equiv.swap_apply_left, Function.update_noteq (Ne.symm hine)]
      · rw [Function.update_noteq hk1, ha', Function.update_noteq hk2,
          Equiv.swap_apply_of_ne_of_ne hk2 hk1, Function.update_noteq hk2]
  have hswapb : ∀ kk, Function.update b' c t2 kk =
      Function.update b index t2 (Equiv.swap index c kk) := by
    intro kk
    by_cases hk1 : kk = c
    · rw [hk1, Function.update_same, Equiv.swap_apply_right,
        Function.update_same]
    · by_cases hk2 : kk = index
      · rw [hk2, Function.update_noteq hine, hb', Function.update_same,
          Equiv.swap_apply_left, Function.update_noteq (Ne.symm hine)]
      · rw [Function.update_noteq hk1, hb', Function.update_noteq hk2,
          Equiv.swap_apply_of_ne_of_ne hk2 hk1, Function.update_noteq hk2]
  -- the value the recursion leaves at position index
  have hrindex : r.1 index = a c := by
    rw [p3 index, p1 index (notDesc_of_lt hic), Function.update_noteq hine,
      ha', Function.update_same]
  refine ⟨σ'.trans (Equiv.swap index c), ?_, ?_, ?_, ?_, ?_, ?_⟩
  · intro j hj
    have hjc : ¬ isDesc c j := fun hd => hj (isDesc_trans hdesc_c hd)
    have hji : j ≠ index := fun he => hj (he ▸ isDesc_self index)
    have hjc' : j ≠ c := fun he => hj (he ▸ hdesc_c)
    rw [Equiv.trans_apply, p1 j hjc, Equiv.swap_apply_of_ne_of_ne hji hjc']
  · intro j hjn
    have hji : j ≠ index := by omega
    have hjc' : j ≠ c := by omega
    rw [Equiv.trans_apply, p2 j hjn, Equiv.swap_apply_of_ne_of_ne hji hjc']
  · intro j
    rw [Equiv.trans_apply, ← hswapa]
    exact p3 j
  · intro j
    rw [Equiv.trans_apply, ← hswapb]
    exact p4 j
  · intro dd hdd hqdd
    by_cases hq1 : c ≤ pIdx dd
    · exact p5 dd hdd hq1
    · push_neg at hq1
      by_cases hdi : dd = index
      · have hpi : pIdx dd = dd := by
          have h1 : pIdx dd ≤ dd := by simp only [pIdx]; omega
          omega
        rw [hpi]
      · by_cases hq2 : pIdx dd = index
        · -- dd is a child of index
          rw [hq2, hrindex]
          by_cases hdc : dd = c
          · rw [hdc]
            refine p6 (a c) (le_of_lt ht) ?_
            intro e he hpe
            have hei : e ≠ index := by
              intro hcontra
              have h1 : pIdx e < e := by
                have : 0 < e := by
                  rcases Nat.eq_zero_or_pos e with h0 | h0
                  · exfalso
                    rw [h0] at hpe
                    simp [pIdx] at hpe
                    omega
                  · exact h0
                simp only [pIdx]
                omega
              omega
            rw [ha', Function.update_noteq hei]
            have := hQ e he (by omega)
            rw [hpe] at this
            exact this
          · -- dd is the sibling of c
            have hnd : ¬ isDesc c dd :=
              notDesc_of_parent_lt (by omega) hdc
            rw [p3 dd, p1 dd hnd, Function.update_noteq hdc, ha',
              Function.update_noteq hdi]
            exact hmax dd hdd hq2 hdi
        · -- index < pIdx dd < c
          have hqgt : index < pIdx dd := by omega
          have hddq : pIdx dd < dd := by
            have h0 : 0 < dd := by
              rcases Nat.eq_zero_or_pos dd with h0 | h0
              · exfalso
                rw [h0] at hqdd hq2
                simp [pIdx] at hqdd hq2
                omega
              · exact h0
            simp only [pIdx]
            omega
          have hddc : dd ≠ c := by
            intro he
            rw [he, hpc] at hq2
            exact hq2 rfl
          have hnd : ¬ isDesc c dd := notDesc_of_parent_lt (by omega) hddc
          have hnq : ¬ isDesc c (pIdx dd) := notDesc_of_lt (by omega)
          rw [p3 dd, p1 dd hnd, Function.update_noteq hddc, ha',
            Function.update_noteq (by omega : dd ≠ index)]
          rw [p3 (pIdx dd), p1 (pIdx dd) hnq,
            Function.update_noteq (by omega : pIdx dd ≠ c), ha',
            Function.update_noteq (by omega : pIdx dd ≠ index)]
          exact hQ dd hdd hqgt
  · intro B hB hch
    rw [hrindex]
    exact hch c hcn hpc

theorem simSift_spec {α γ : Type} [LinearOrder α] :
    ∀ (k : ℕ) (a : ℕ → α) (b : ℕ → γ) (t1 : α) (t2 : γ) (n index : ℕ),
      n - index ≤ k → index < n →
      (∀ c, c < n → index < pIdx c → a c ≤ a (pIdx c)) →
      SiftSpec a b t1 t2 n index (simSift a b t1 t2 n index) := by
  intro k
  induction k with
  | zero =>
    intro a b t1 t2 n index hk hin _
    omega
  | succ k ih =>
    intro a b t1 t2 n index hk hin hQ
    rw [simSift]
    by_cases h1 : 2 * index + 1 < n
    · rw [dif_pos h1]
      by_cases h2 : 2 * index + 2 < n ∧ a (2 * index + 1) < a (2 * index + 2)
      · rw [dif_pos h2]
        by_cases h3 : t1 < a (2 * index + 2)
        · rw [if_pos h3]
          refine sift_step a b t1 t2 n index (2 * index + 2) (Or.inr rfl)
            h2.1 ?_ h3 hQ ?_
          · intro o ho hpo hone
            rcases child_of_pIdx hpo hone with ho1 | ho2
            · rw [ho1]
              exact le_of_lt h2.2
            · rw [ho2]
          · refine ih (Function.update a index (a (2 * index + 2)))
              (Function.update b index (b (2 * index + 2))) t1 t2 n
              (2 * index + 2) (by omega) h2.1 ?_
            intro d hd hpd
            have hd1 : 0 < d := by
              rcases Nat.eq_zero_or_pos d with h0 | h0
              · exfalso
                rw [h0] at hpd
                simp only [pIdx] at hpd
                omega
              · exact h0
            have hdgt : pIdx d < d := by simp only [pIdx]; omega
            rw [Function.update_noteq (by omega : d ≠ index),
              Function.update_noteq (by omega : pIdx d ≠ index)]
            exact hQ d hd (by omega)
        · rw [if_neg h3]
          refine sift_base a b t1 t2 n index ?_ hQ
          intro dd hdd hpdd hdne
          rcases child_of_pIdx hpdd hdne with hd1 | hd2
          · rw [hd1]
            exact le_trans (le_of_lt h2.2) (not_lt.mp h3)
          · rw [hd2]
            exact not_lt.mp h3
      · rw [dif_neg h2]
        by_cases h3 : t1 < a (2 * index + 1)
        · rw [if_pos h3]
          refine sift_step a b t1 t2 n index (2 * index + 1) (Or.inl rfl)
            h1 ?_ h3 hQ ?_
          · intro o ho hpo hone
            rcases child_of_pIdx hpo hone with ho1 | ho2
            · rw [ho1]
            · rw [ho2]
              by_contra hcon
              push_neg at hcon
              exact h2 ⟨by omega, hcon⟩
          · refine ih (Function.update a index (a (2 * index + 1)))
              (Function.update b index (b (2 * index + 1))) t1 t2 n
              (2 * index + 1) (by omega) h1 ?_
            intro d hd hpd
            have hd1 : 0 < d := by
              rcases Nat.eq_zero_or_pos d with h0 | h0
              · exfalso
                rw [h0] at hpd
                simp only [pIdx] at hpd
                omega
              · exact h0
            have hdgt : pIdx d < d := by simp only [pIdx]; omega
            rw [Function.update_noteq (by omega : d ≠ index),
              Function.update_noteq (by omega : pIdx d ≠ index)]
            exact hQ d hd (by omega)
        · rw [if_neg h3]
          refine sift_base a b t1 t2 n index ?_ hQ
          intro dd hdd hpdd hdne
          rcases child_of_pIdx hpdd hdne with hd1 | hd2
          · rw [hd1]
            exact not_lt.mp h3
          · rw [hd2]
            have hb : a (2 * index + 2) ≤ a (2 * index + 1) := by
              by_contra hcon
              push_neg at hcon
              exact h2 ⟨by omega, hcon⟩
            exact le_trans hb (not_lt.mp h3)
    · rw [dif_neg h1]
      refine sift_base a b t1 t2 n index ?_ hQ
      intro dd hdd hpdd hdne
      rcases child_of_pIdx hpdd hdne with hd1 | hd2 <;> omega

theorem heap_le_root {α : Type} [LinearOrder α] (a : ℕ → α) (n : ℕ)
    (hH : ∀ c, c < n → a c ≤ a (pIdx c)) : ∀ kk, kk < n → a kk ≤ a 0 := by
  intro kk
  induction kk using Nat.strong_induction_on with
  | _ kk ihk =>
    intro hkk
    rcases Nat.eq_zero_or_pos kk with h0 | h0
    · rw [h0]
    · have h1 : pIdx kk < kk := by simp only [pIdx]; omega
      exact le_trans (hH kk hkk) (ihk (pIdx kk) h1 (by omega))

theorem simLoop_spec {α γ : Type} [LinearOrder α] (N : ℕ) :
    ∀ (k n parent : ℕ) (a : ℕ → α) (b : ℕ → γ),
      n + parent ≤ k →
      parent ≤ n → n ≤ N →
      (∀ c, c < n → parent ≤ pIdx c → a c ≤ a (pIdx c)) →
      (∀ i j, n ≤ i → i ≤ j → j < N → a i ≤ a j) →
      (∀ i, i < n → ∀ j, n ≤ j → j < N → a i ≤ a j) →
      ∃ σ : Equiv.Perm ℕ,
        (∀ j, n ≤ j → σ j = j) ∧
        (∀ j, (simLoop a b n parent).1 j = a (σ j)) ∧
        (∀ j, (simLoop a b n parent).2 j = b (σ j)) ∧
        (∀ i j, i ≤ j → j < N →
          (simLoop a b n parent).1 i ≤ (simLoop a b n parent).1 j) := by
  intro k
  induction k with
  | zero =>
    intro n parent a b hk hpn hnN hI2 hI4 hI5
    have hn0 : n = 0 := by omega
    rw [simLoop, if_neg (by omega)]
    refine ⟨Equiv.refl ℕ, fun j _ => rfl, fun j => rfl, fun j => rfl, ?_⟩
    intro i j hij hjN
    exact hI4 i j (by omega) hij hjN
  | succ k ih =>
    intro n parent a b hk hpn hnN hI2 hI4 hI5
    rw [simLoop]
    by_cases hn : 1 < n
    · rw [if_pos hn]
      by_cases hp : 0 < parent
      · -- phase 1: heap construction
        rw [if_pos hp]
        have hsift := simSift_spec n a b (a (parent - 1)) (b (parent - 1)) n
          (parent - 1) (by omega) (by omega) (by
            intro c hc hqc
            exact hI2 c hc (by omega))
        obtain ⟨σ₁, q1, q2, q3, q4, q5, q6⟩ := hsift
        have hid : Function.update a (parent - 1) (a (parent - 1)) = a :=
          Function.update_eq_self _ _
        have q3' : ∀ j,
            (simSift a b (a (parent - 1)) (b (parent - 1)) n (parent - 1)).1 j
              = a (σ₁ j) := by
          intro j
          rw [q3 j, hid]
        have q4' : ∀ j,
            (simSift a b (a (parent - 1)) (b (parent - 1)) n (parent - 1)).2 j
              = b (σ₁ j) := by
          intro j
          rw [q4 j, Function.update_eq_self]
        have hrec := ih n (parent - 1)
          (simSift a b (a (parent - 1)) (b (parent - 1)) n (parent - 1)).1
          (simSift a b (a (parent - 1)) (b (parent - 1)) n (parent - 1)).2
          (by omega) (by omega) hnN
          (by
            intro c hc hqc
            exact q5 c hc (by omega))
          (by
            intro i j hi hij hjN
            rw [q3' i, q3' j, q2 i hi, q2 j (by omega)]
            exact hI4 i j hi hij hjN)
          (by
            intro i hi j hj hjN
            rw [q3' i, q3' j, q2 j hj]
            exact hI5 (σ₁ i) (perm_fix_lt q2 hi) j hj hjN)
        obtain ⟨σ₂, w1, w2, w3, w4⟩ := hrec
        refine ⟨σ₂.trans σ₁, ?_, ?_, ?_, w4⟩
        · intro j hj
          rw [Equiv.trans_apply, w1 j hj, q2 j hj]
        · intro j
          rw [Equiv.trans_apply, w2 j, q3' (σ₂ j)]
        · intro j
          rw [Equiv.trans_apply, w3 j, q4' (σ₂ j)]
      · -- phase 2: extraction
        rw [if_neg hp]
        have hp0 : parent = 0 := by omega
        have hQ0 : ∀ c, c < n → a c ≤ a (pIdx c) := by
          intro c hc
          exact hI2 c hc (by omega)
        have hroot : ∀ kk, kk < n → a kk ≤ a 0 := heap_le_root a n hQ0
        set a1 := Function.update a (n - 1) (a 0) with ha1
        set b1 := Function.update b (n - 1) (b 0) with hb1
        have hsift := simSift_spec n a1 b1 (a (n - 1)) (b (n - 1)) (n - 1) 0
          (by omega) (by omega) (by
            intro c hc hqc
            have hcq : pIdx c < c := by simp only [pIdx] at hqc ⊢; omega
            rw [ha1, Function.update_noteq (by omega : c ≠ n - 1),
              Function.update_noteq (by omega : pIdx c ≠ n - 1)]
            exact hQ0 c (by omega))
        obtain ⟨σ₁, q1, q2, q3, q4, q5, q6⟩ := hsift
        have hswa : ∀ kk, Function.update a1 0 (a (n - 1)) kk =
            a (Equiv.swap 0 (n - 1) kk) := by
          intro kk
          by_cases hk0 : kk = 0
          · rw [hk0, Function.update_same, Equiv.swap_apply_left]
          · by_cases hkn : kk = n - 1
            · rw [hkn, Function.update_noteq (by omega : n - 1 ≠ 0), ha1,
                Function.update_same, Equiv.swap_apply_right]
            · rw [Function.update_noteq hk0, ha1,
                Function.update_noteq hkn,
                Equiv.swap_apply_of_ne_of_ne hk0 hkn]
        have hswb : ∀ kk, Function.update b1 0 (b (n - 1)) kk =
            b (Equiv.swap 0 (n - 1) kk) := by
          intro kk
          by_cases hk0 : kk = 0
          · rw [hk0, Function.update_same, Equiv.swap_apply_left]
          · by_cases hkn : kk = n - 1
            · rw [hkn, Function.update_noteq (by omega : n - 1 ≠ 0), hb1,
                Function.update_same, Equiv.swap_apply_right]
            · rw [Function.update_noteq hk0, hb1,
                Function.update_noteq hkn,
                Equiv.swap_apply_of_ne_of_ne hk0 hkn]
        have q3' : ∀ j, (simSift a1 b1 (a (n - 1)) (b (n - 1)) (n - 1) 0).1 j
            = a (Equiv.swap 0 (n - 1) (σ₁ j)) := by
          intro j
          rw [q3 j, hswa]
        have q4' : ∀ j, (simSift a1 b1 (a (n - 1)) (b (n - 1)) (n - 1) 0).2 j
            = b (Equiv.swap 0 (n - 1) (σ₁ j)) := by
          intro j
          rw [q4 j, hswb]
        -- values at fixed positions
        have hval : ∀ j, n - 1 ≤ j →
            (simSift a1 b1 (a (n - 1)) (b (n - 1)) (n - 1) 0).1 j =
              a (Equiv.swap 0 (n - 1) j) := by
          intro j hj
          rw [q3' j, q2 j hj]
        have hrec := ih (n - 1) 0
          (simSift a1 b1 (a (n - 1)) (b (n - 1)) (n - 1) 0).1
          (simSift a1 b1 (a (n - 1)) (b (n - 1)) (n - 1) 0).2
          (by omega) (by omega) (by omega)
          (by
            intro c hc hqc
            exact q5 c hc (by omega))
          (by
            intro i j hi hij hjN
            rw [hval i hi, hval j (by omega)]
            by_cases hi1 : i = n - 1
            · rw [hi1, Equiv.swap_apply_right]
              by_cases hj1 : j = n - 1
              · rw [hj1, Equiv.swap_apply_right]
              · rw [Equiv.swap_apply_of_ne_of_ne (by omega : j ≠ 0) hj1]
                exact hI5 0 (by omega) j (by omega) hjN
            · rw [Equiv.swap_apply_of_ne_of_ne (by omega : i ≠ 0) hi1,
                Equiv.swap_apply_of_ne_of_ne (by omega : j ≠ 0) (by omega : j ≠ n - 1)]
              exact hI4 i j (by omega) hij hjN)
          (by
            intro i hi j hj hjN
            rw [q3' i, hval j hj]
            have hσi : σ₁ i < n - 1 := perm_fix_lt q2 hi
            have hle0 : a (Equiv.swap 0 (n - 1) (σ₁ i)) ≤ a 0 := by
              by_cases h0 : σ₁ i = 0
              · rw [h0, Equiv.swap_apply_left]
                exact hroot (n - 1) (by omega)
              · rw [Equiv.swap_apply_of_ne_of_ne h0 (by omega : σ₁ i ≠ n - 1)]
                exact hroot (σ₁ i) (by omega)
            by_cases hj1 : j = n - 1
            · rw [hj1, Equiv.swap_apply_right]
              exact hle0
            · rw [Equiv.swap_apply_of_ne_of_ne (by omega : j ≠ 0) hj1]
              exact le_trans hle0 (hI5 0 (by omega) j (by omega) hjN))
        obtain ⟨σ₂, w1, w2, w3, w4⟩ := hrec
        refine ⟨σ₂.trans (σ₁.trans (Equiv.swap 0 (n - 1))), ?_, ?_, ?_, w4⟩
        · intro j hj
          rw [Equiv.trans_apply, w1 j (by omega), Equiv.trans_apply,
            q2 j (by omega),
            Equiv.swap_apply_of_ne_of_ne (by omega : j ≠ 0) (by omega : j ≠ n - 1)]
        · intro j
          rw [Equiv.trans_apply, w2 j, q3' (σ₂ j), Equiv.trans_apply]
        · intro j
          rw [Equiv.trans_apply, w3 j, q4' (σ₂ j), Equiv.trans_apply]
    · rw [if_neg hn]
      refine ⟨Equiv.refl ℕ, fun j _ => rfl, fun j => rfl, fun j => rfl, ?_⟩
      intro i j hij hjN
      by_cases hi : n ≤ i
      · exact hI4 i j hi hij hjN
      · push_neg at hi
        by_cases hj : n ≤ j
        · exact hI5 i hi j hj hjN
        · have : i = j := by omega
          rw [this]

theorem heapSift_eq_simSift {α γ : Type} [LinearOrder α] :
    ∀ (k : ℕ) (a : ℕ → α) (b : ℕ → γ) (t1 : α) (t2 : γ) (n index : ℕ),
      n - index ≤ k →
      heapSift a t1 n index = (simSift a b t1 t2 n index).1 := by
  intro k
  induction k with
  | zero =>
    intro a b t1 t2 n index hk
    rw [heapSift, simSift, dif_neg (by omega), dif_neg (by omega)]
  | succ k ih =>
    intro a b t1 t2 n index hk
    rw [heapSift, simSift]
    by_cases h1 : 2 * index + 1 < n
    · rw [dif_pos h1, dif_pos h1]
      by_cases h2 : 2 * index + 2 < n ∧ a (2 * index + 1) < a (2 * index + 2)
      · rw [dif_pos h2, dif_pos h2]
        by_cases h3 : t1 < a (2 * index + 2)
        · rw [if_pos h3, if_pos h3]
          exact ih _ (Function.update b index (b (2 * index + 2))) t1 t2 n
            (2 * index + 2) (by omega)
        · rw [if_neg h3, if_neg h3]
      · rw [dif_neg h2, dif_neg h2]
        by_cases h3 : t1 < a (2 * index + 1)
        · rw [if_pos h3, if_pos h3]
          exact ih _ (Function.update b index (b (2 * index + 1))) t1 t2 n
            (2 * index + 1) (by omega)
        · rw [if_neg h3, if_neg h3]
    · rw [dif_neg h1, dif_neg h1]

theorem heapLoop_eq_simLoop {α γ : Type} [LinearOrder α] :
    ∀ (k n parent : ℕ) (a : ℕ → α) (b : ℕ → γ),
      n + parent ≤ k →
      heapLoop a n parent = (simLoop a b n parent).1 := by
  intro k
  induction k with
  | zero =>
    intro n parent a b hk
    rw [heapLoop, simLoop, if_neg (by omega), if_neg (by omega)]
  | succ k ih =>
    intro n parent a b hk
    rw [heapLoop, simLoop]
    by_cases hn : 1 < n
    · rw [if_pos hn, if_pos hn]
      by_cases hp : 0 < parent
      · rw [if_pos hp, if_pos hp]
        rw [heapSift_eq_simSift n a b (a (parent - 1)) (b (parent - 1)) n
          (parent - 1) (by omega)]
        exact ih n (parent - 1)
          (simSift a b (a (parent - 1)) (b (parent - 1)) n (parent - 1)).1
          (simSift a b (a (parent - 1)) (b (parent - 1)) n (parent - 1)).2
          (by omega)
      · rw [if_neg hp, if_neg hp]
        rw [heapSift_eq_simSift (n - 1) (Function.update a (n - 1) (a 0))
          (Function.update b (n - 1) (b 0)) (a (n - 1)) (b (n - 1)) (n - 1) 0
          (by omega)]
        exact ih (n - 1) 0 _ _ (by omega)
    · rw [if_neg hn, if_neg hn]

/-- C9: Sort::Heap rearranges its range into non-decreasing order and the
result is a permutation of the input (a permutation of positions fixing
everything outside the range); Sort::HeapSimultaneous sorts its first range
the same way while applying the identical position permutation to the
second range, preserving the pairing between the two ranges. -/
theorem heap_sort_correct {α γ : Type} [LinearOrder α] (a : ℕ → α)
    (b : ℕ → γ) (nn : ℕ) :
    ∃ σ : Equiv.Perm ℕ,
      (∀ j, nn ≤ j → σ j = j) ∧
      (∀ j, heapSort a nn j = a (σ j)) ∧
      (∀ i j, i ≤ j → j < nn → heapSort a nn i ≤ heapSort a nn j) ∧
      (∀ j, (heapSimultaneous a b nn).1 j = a (σ j)) ∧
      (∀ j, (heapSimultaneous a b nn).2 j = b (σ j)) ∧
      (∀ i j, i ≤ j → j < nn →
        (heapSimultaneous a b nn).1 i ≤ (heapSimultaneous a b nn).1 j) := by
  have hmain := simLoop_spec nn (nn + nn / 2) nn (nn / 2) a b (le_refl _)
    (by omega) (le_refl nn)
    (by
      intro c hc hq
      rcases Nat.eq_zero_or_pos c with h0 | h0
      · have hp0 : pIdx c = c := by rw [h0]; simp [pIdx]
        rw [hp0]
      · exfalso
        simp only [pIdx] at hq
        omega)
    (by
      intro i j hi hij hjN
      omega)
    (by
      intro i hi j hj hjN
      omega)
  obtain ⟨σ, s1, s2, s3, s4⟩ := hmain
  have hhs : heapSort a nn = (simLoop a b nn (nn / 2)).1 :=
    heapLoop_eq_simLoop (nn + nn / 2) nn (nn / 2) a b (le_refl _)
  refine ⟨σ, s1, ?_, ?_, s2, s3, s4⟩
  · intro j
    rw [hhs]
    exact s2 j
  · intro i j hij hjN
    rw [hhs]
    exact s4 i j hij hjN
